import Mathlib

/-!
Verification development for the event-history lookup subsystem of the
XAUUSD-Calendar-Agent repository (src/app/tauri/src-tauri/src/commands/history.rs).

Rust strings are modelled as lists of characters (type Str below); Rust byte
indices and byte lengths are modelled through Char.utf8Size, so byte offsets
into the NDJSON log are faithful for all UTF-8 content.  Rust's
str::to_lowercase / to_uppercase are modelled by the ASCII case maps
(Char.toLower / Char.toUpper); the Unicode-only differences are irrelevant to
every statement proved here.  serde_json is external to the subsystem, so JSON
parsing is a parameter (parse : Str → Option Json) of every function that
parses text, and JSON values are modelled by the inductive type Json.
File-system reads that can fail for I/O reasons are modelled as reads of the
file content held in a World value; the source's Option results that exist
solely to absorb I/O errors (File::open, read_line) are therefore total here.
-/

/-- Rust String / &str, modelled as its sequence of Unicode scalar values. -/
abbrev Str := List Char

/-- Convenience: the character list of a Lean string literal. -/
def lit (s : String) : Str := s.data

/-- Rust char::is_whitespace, restricted to the ASCII whitespace actually
exercised by this subsystem (identical to Lean's Char.isWhitespace). -/
def isWS (c : Char) : Bool := c.isWhitespace

/-- Total UTF-8 byte length of a string; models Rust str::len (in bytes). -/
def utf8Len : Str → Nat
  | [] => 0
  | c :: rest => c.utf8Size + utf8Len rest

/-- u64::saturating_add on natural numbers. -/
def satAdd (a b : Nat) : Nat := min (a + b) (2 ^ 64 - 1)

/-- Rust str::to_lowercase (ASCII case map). -/
def toLowerStr (l : Str) : Str := l.map Char.toLower

/-- Rust str::to_uppercase (ASCII case map). -/
def toUpperStr (l : Str) : Str := l.map Char.toUpper

/-- Rust str::trim_start. -/
def trimL (l : Str) : Str := l.dropWhile isWS

/-- Rust str::trim_end. -/
def trimR : Str → Str
  | [] => []
  | c :: rest =>
    match trimR rest with
    | [] => if isWS c then [] else [c]
    | r => c :: r

/-- Rust str::trim. -/
def rustTrim (l : Str) : Str := trimL (trimR l)

/-- Rust str::eq_ignore_ascii_case. -/
def eqIgnoreAsciiCase (a b : Str) : Bool := toLowerStr a = toLowerStr b

/-- Rust str::contains (substring search), needle first. -/
def containsSub (needle : Str) : Str → Bool
  | [] => needle.isPrefixOf []
  | c :: rest => needle.isPrefixOf (c :: rest) || containsSub needle rest

/-- Index of the last occurrence of a character satisfying p (Rust str::rfind).
Positions are character positions; every character this development searches
for is ASCII, so they coincide with Rust's byte positions at those characters. -/
def rfindIdx (p : Char → Bool) : Str → Option Nat
  | [] => none
  | c :: rest =>
    match rfindIdx p rest with
    | some i => some (i + 1)
    | none => if p c then some 0 else none

/-- Rust str::split on the two-character separator "::" (leftmost-first,
non-overlapping), as a list of the parts. -/
def splitOnDC : Str → List Str
  | [] => [[]]
  | [c] => [[c]]
  | a :: b :: rest =>
    if a = ':' ∧ b = ':' then [] :: splitOnDC rest
    else
      match splitOnDC (b :: rest) with
      | [] => [[a]]
      | p :: ps => (a :: p) :: ps

/-- Rust str::split_whitespace: the maximal nonempty runs of non-whitespace. -/
def wordsOf : Str → List Str
  | [] => []
  | c :: rest =>
    if isWS c then wordsOf rest
    else
      match wordsOf rest, rest with
      | [], _ => [[c]]
      | w :: ws, r0 :: _ => if isWS r0 then [c] :: w :: ws else (c :: w) :: ws
      | _ :: _, [] => [[c]]

/-- Vec::join with a single-space separator. -/
def joinSp : List Str → Str
  | [] => []
  | [w] => w
  | w :: ws => w ++ ' ' :: joinSp ws

/-- Rust str::replace("::", " ") (leftmost-first, non-overlapping). -/
def replaceDC : Str → Str
  | [] => []
  | ':' :: ':' :: rest => ' ' :: replaceDC rest
  | c :: rest => c :: replaceDC rest

/-- Rust str::replace('.', ""). -/
def removeDots (l : Str) : Str := l.filter (fun c => c ≠ '.')

/-- Rust str::strip_suffix(')'). -/
def stripSuffixParen (l : Str) : Option Str :=
  if l.getLast? = some ')' then some l.dropLast else none

/-- True when the string's final character is ':' (used to state the amended
idempotence condition for normalize_event_id). -/
def endsColon : Str → Bool
  | [] => false
  | [c] => c = ':'
  | _ :: c :: rest => endsColon (c :: rest)

/-- True when the string contains two adjacent colons. -/
def hasCP : Str → Bool
  | [] => false
  | [_] => false
  | a :: b :: rest => (a = ':' && b = ':') || hasCP (b :: rest)

/-- serde_json::Value.  Numbers are modelled as integers: the only numeric
values this subsystem reads are the u64 byte offsets of the index file
(floating-point JSON numbers would fail the as_u64 conversion exactly like any
other non-u64 value, so they are not distinguished here).  Objects are
association lists; the witnesses below only use objects with distinct keys, so
serde_json's map behaviour (sorted keys, last duplicate wins) never differs. -/
inductive Json where
  | null : Json
  | bool : Bool → Json
  | num : Int → Json
  | str : Str → Json
  | arr : List Json → Json
  | obj : List (Str × Json) → Json

/-- Value::get(key) on objects (first binding of the key). -/
def Json.get : Json → Str → Option Json
  | .obj fields, k => (fields.find? (fun p => p.1 = k)).map (·.2)
  | _, _ => none

/-- Value::as_str. -/
def Json.as_str : Json → Option Str
  | .str s => some s
  | _ => none

/-- Value::as_array. -/
def Json.as_array : Json → Option (List Json)
  | .arr xs => some xs
  | _ => none

/-- Value::as_object. -/
def Json.as_object : Json → Option (List (Str × Json))
  | .obj fields => some fields
  | _ => none

/-- Value::as_u64. -/
def Json.as_u64 : Json → Option Nat
  | .num n => if 0 ≤ n ∧ n < 2 ^ 64 then some n.toNat else none
  | _ => none

/-- MONTH_ALIASES from history.rs. -/
def MONTH_ALIASES : List (Str × Str) :=
  [(lit "january", lit "jan"), (lit "february", lit "feb"), (lit "march", lit "mar"),
   (lit "april", lit "apr"), (lit "june", lit "jun"), (lit "july", lit "jul"),
   (lit "august", lit "aug"), (lit "sept", lit "sep"), (lit "september", lit "sep"),
   (lit "october", lit "oct"), (lit "november", lit "nov"), (lit "december", lit "dec")]

/-- MONTHS from history.rs. -/
def MONTHS : List Str :=
  [lit "jan", lit "feb", lit "mar", lit "apr", lit "may", lit "jun",
   lit "jul", lit "aug", lit "sep", lit "oct", lit "nov", lit "dec"]

/-- fn normalize_period.  The source's two early-return branches for a `q`/`h`
plus digit token and the final fallthrough both return `lowered`, so they are
written as the single final `lowered` here. -/
def normalize_period (raw : Str) : Str :=
  let token := rustTrim raw
  if token = [] then []
  else
    let lowered := removeDots (toLowerStr token)
    if lowered ∈ MONTHS then lowered
    else
      match MONTH_ALIASES.find? (fun p => p.1 = lowered) with
      | some p => p.2
      | none => lowered

/-- fn looks_like_period.  `normalized.len() == 2` is a byte length, modelled
via utf8Len; a two-byte string made of one two-byte character fails the
`bytes[0]`/`bytes[1]` tests in the source (its bytes are not ASCII), matching
the wildcard false branch here. -/
def looks_like_period (token : Str) : Bool :=
  let normalized := normalize_period token
  if normalized = [] then false
  else if normalized ∈ MONTHS then true
  else if utf8Len normalized = 2 then
    match normalized with
    | [b0, b1] => (b0 = 'q' || b0 = 'h') && b1.isDigit
    | _ => false
  else false

/-- fn detect_frequency. -/
def detect_frequency (raw : Str) : Str :=
  let lowered := toLowerStr raw
  if containsSub (lit "y/y") lowered || containsSub (lit "yoy") lowered then lit "y/y"
  else if containsSub (lit "m/m") lowered || containsSub (lit "mom") lowered then lit "m/m"
  else if containsSub (lit "q/q") lowered || containsSub (lit "qoq") lowered then lit "q/q"
  else if containsSub (lit "w/w") lowered || containsSub (lit "wow") lowered then lit "w/w"
  else []

/-- One pass of the loop body of fn strip_known_suffixes, driven by a fuel
argument.  Each executed iteration strictly shortens the working string, so
fuel = length + 1 (as supplied by strip_known_suffixes) always suffices; the
fuel-0 branch is unreachable there. -/
def strip_loop : Nat → Str → Str
  | 0, trimmed => trimmed
  | fuel + 1, trimmed =>
    let e := trimR trimmed
    if e.getLast? = some ')' then
      match rfindIdx (fun c => c = '(') e with
      | none => trimmed
      | some open_idx =>
        let token := rustTrim ((e.drop (open_idx + 1)).dropLast)
        let normalized := removeDots (toLowerStr token)
        let is_freq := containsSub (lit "y/y") normalized || containsSub (lit "yoy") normalized
          || containsSub (lit "m/m") normalized || containsSub (lit "mom") normalized
          || containsSub (lit "q/q") normalized || containsSub (lit "qoq") normalized
          || containsSub (lit "w/w") normalized || containsSub (lit "wow") normalized
        if looks_like_period token || is_freq then strip_loop fuel (trimR (e.take open_idx))
        else trimmed
    else trimmed

/-- fn strip_known_suffixes. -/
def strip_known_suffixes (raw : Str) : Str := strip_loop (raw.length + 1) (rustTrim raw)

/-- fn build_event_id, returning (event_id, metric, period). -/
def build_event_id (cur event : Str) : Str × Str × Str :=
  let currency :=
    let c := toUpperStr (rustTrim cur)
    if c = [] ∨ c = lit "--" ∨ c = lit "-" then lit "NA" else c
  let raw := rustTrim event
  let frequency := detect_frequency raw
  let period :=
    match rfindIdx (fun c => c = ')') raw with
    | none => []
    | some idx =>
      match rfindIdx (fun c => c = '(') (raw.take (idx + 1)) with
      | none => []
      | some open_idx =>
        let token := rustTrim (raw.drop (open_idx + 1))
        match stripSuffixParen token with
        | some stripped =>
          let token2 := rustTrim stripped
          if looks_like_period token2 then token2 else []
        | none => []
  let metric := replaceDC (joinSp (wordsOf (strip_known_suffixes raw)))
  let freq_token := if frequency = [] then lit "none" else frequency
  (currency ++ lit "::" ++ metric ++ lit "::" ++ freq_token, metric, period)

/-- fn normalize_metric_key: the character-scanning loop with its
last_was_space flag. -/
def nmkCore : Str → Bool → Str
  | [], _ => []
  | c :: rest, lws =>
    if c.isAlphanum || c = '/' || c = '%' then c :: nmkCore rest false
    else if lws then nmkCore rest true
    else ' ' :: nmkCore rest true

/-- fn normalize_metric_key. -/
def normalize_metric_key (value : Str) : Str :=
  joinSp (wordsOf (nmkCore (toLowerStr value) false))

/-- fn normalize_event_id. -/
def normalize_event_id (value : Str) : Str :=
  let ps := splitOnDC value
  let cur := toLowerStr (rustTrim (ps.getD 0 []))
  let metric := rustTrim (ps.getD 1 [])
  let freq := toLowerStr (rustTrim (ps.getD 2 []))
  if cur = [] ∨ metric = [] ∨ freq = [] then toLowerStr (rustTrim value)
  else cur ++ lit "::" ++ normalize_metric_key metric ++ lit "::" ++ freq

/-- The in-memory offset index (std HashMap<String, u64>), modelled as an
association list in insertion order; lookups take the first binding, so
Entry::or_insert's first-writer-wins behaviour is preserved exactly. -/
abbrev HMap := List (Str × Nat)

/-- HashMap::get. -/
def hmGet (m : HMap) (k : Str) : Option Nat :=
  (m.find? (fun p => p.1 = k)).map (·.2)

/-- HashMap::entry(key).or_insert(offset): insert only when the key is absent. -/
def orInsert (m : HMap) (k : Str) (v : Nat) : HMap :=
  if (hmGet m k).isSome then m else m ++ [(k, v)]

/-- fn insert_index_variants. -/
def insert_index_variants (m : HMap) (key : Str) (offset : Nat) : HMap :=
  orInsert (orInsert (orInsert m key offset) (toLowerStr key) offset)
    (normalize_event_id key) offset

/-- The lines BufRead::read_line yields from a file's content, each including
its terminating newline when present (the final line may lack one).  Their
concatenation is the content, so the byte length of a line is exactly the
number of bytes read_line consumed for it. -/
def linesOf : Str → List Str
  | [] => []
  | c :: rest =>
    if c = '\n' then [c] :: linesOf rest
    else
      match linesOf rest with
      | [] => [[c]]
      | l :: ls => (c :: l) :: ls

/-- The loop of fn build_index_from_ndjson: offset is the running byte cursor,
advanced by the saturating addition of each line's byte length whether or not
the line is blank or parses. -/
def build_index_go (parse : Str → Option Json) : List Str → Nat → HMap → HMap
  | [], _, m => m
  | line :: rest, offset, m =>
    if (rustTrim line).isEmpty then build_index_go parse rest (satAdd offset (utf8Len line)) m
    else
      let m' :=
        match parse line with
        | some payload =>
          match (payload.get (lit "eventId")).bind Json.as_str with
          | some event_id => insert_index_variants m event_id offset
          | none => m
        | none => m
      build_index_go parse rest (satAdd offset (utf8Len line)) m'

/-- fn build_index_from_ndjson over the log file's content.  The source's
Option return value only absorbs I/O errors (File::open, read_line), which the
content-level model cannot exhibit, so the result is total here. -/
def build_index_from_ndjson (parse : Str → Option Json) (content : Str) : HMap :=
  build_index_go parse (linesOf content) 0 []

/-- Byte offset of the start of line i: the saturating sum of the byte lengths
of all preceding lines (blank and malformed lines included). -/
def lineStart (lines : List Str) (i : Nat) : Nat :=
  (lines.take i).foldl (fun o l => satAdd o (utf8Len l)) 0

/-- The entry loop of fn load_event_history_index: a single value that is not
a u64 aborts the whole load with none (the source's `value.as_u64()?`). -/
def load_index_entries : List (Str × Json) → HMap → Option HMap
  | [], m => some m
  | (key, value) :: rest, m =>
    match value.as_u64 with
    | none => none
    | some offset => load_index_entries rest (insert_index_variants m key offset)

/-- fn load_event_history_index.  The argument is the parsed content of the
index file (none when the file is unreadable or not JSON, in which case
read_to_string(..).ok()? / from_str(..).ok()? return early in the source). -/
def load_event_history_index (indexJson : Option Json) : Option HMap :=
  match indexJson with
  | none => none
  | some payload =>
    match (payload.get (lit "index")).bind Json.as_object with
    | none => none
    | some entries => load_index_entries entries []

/-- Seeking to a byte offset: drop that many bytes from the content.  Landing
inside a multi-byte character makes the subsequent read_line fail with an
invalid-UTF-8 error in the source (a proper suffix of a UTF-8 character starts
with a continuation byte), modelled by none. -/
def dropBytes : Str → Nat → Option Str
  | l, 0 => some l
  | [], _ + 1 => some []
  | c :: rest, n + 1 =>
    if n + 1 < c.utf8Size then none else dropBytes rest (n + 1 - c.utf8Size)

/-- read_line after a seek: everything up to and including the first newline. -/
def takeLine : Str → Str
  | [] => []
  | c :: rest => if c = '\n' then [c] else c :: takeLine rest

/-- fn read_ndjson_line over the log file's content. -/
def read_ndjson_line (content : Str) (offset : Nat) : Option Str :=
  match dropBytes content offset with
  | none => none
  | some tail =>
    let line := takeLine tail
    if (rustTrim line).isEmpty then none else some line

/-- fn event_id_matches. -/
def event_id_matches (candidate actual : Str) : Bool :=
  candidate = actual || eqIgnoreAsciiCase candidate actual
    || normalize_event_id candidate = normalize_event_id actual

/-- fn payload_event_id_matches. -/
def payload_event_id_matches (payload : Json) (candidates : List Str) : Bool :=
  match (payload.get (lit "eventId")).bind Json.as_str with
  | none => false
  | some actual => candidates.any (fun candidate => event_id_matches candidate actual)

/-- fn read_payload_at_offset. -/
def read_payload_at_offset (parse : Str → Option Json) (content : Str) (offset : Nat)
    (candidates : List Str) : Option Json :=
  match read_ndjson_line content offset with
  | none => none
  | some line =>
    match parse line with
    | none => none
    | some payload =>
      if payload_event_id_matches payload candidates then some payload else none

/-- The to_text closure of fn points_from_payload. -/
def to_text (items : List Json) (idx : Nat) : Str :=
  rustTrim (((items.get? idx).bind Json.as_str).getD [])

/-- The empty-to-null embedding the source writes inline for the four optional
point fields. -/
def emptyToNull (s : Str) : Json := if s.isEmpty then Json.null else Json.str s

/-- The json! object built for one tuple row of at least 5 elements. -/
def rowJson (items : List Json) : Json :=
  let date := to_text items 0
  let time := to_text items 1
  let actual := to_text items 2
  let forecast := to_text items 3
  let previous := to_text items 4
  let actual_raw := if 7 ≤ items.length then to_text items 5 else []
  let previous_raw := if 7 ≤ items.length then to_text items 6 else []
  let pr_pd : Str × Str :=
    if 9 ≤ items.length then (to_text items (items.length - 2), to_text items (items.length - 1))
    else if 8 ≤ items.length then ([], to_text items (items.length - 1))
    else ([], [])
  Json.obj
    [(lit "date", Json.str date),
     (lit "time", Json.str time),
     (lit "actual", Json.str actual),
     (lit "actualRaw", emptyToNull actual_raw),
     (lit "forecast", Json.str forecast),
     (lit "previous", Json.str previous),
     (lit "previousRaw", emptyToNull previous_raw),
     (lit "previousRevisedFrom", emptyToNull pr_pd.1),
     (lit "period", emptyToNull pr_pd.2)]

/-- fn points_from_payload: non-array rows and rows shorter than 5 are
discarded, every other row yields one point, in order. -/
def points_from_payload (payload : Json) : List Json :=
  match (payload.get (lit "points")).bind Json.as_array with
  | none => []
  | some rows =>
    rows.filterMap (fun row =>
      match row.as_array with
      | none => none
      | some items => if items.length < 5 then none else some (rowJson items))

/-- A calendar event as consumed by the fallback scan (external collaborator,
crate::calendar).  dt_fmt models item.dt_utc.format("%Y-%m-%d").to_string();
the chrono formatter itself is outside this subsystem. -/
structure CalendarEvent where
  currency : Str
  event : Str
  dt_fmt : Str
  time_label : Str
  importance : Str
  actual : Str
  forecast : Str
  previous : Str

/-- The on-disk state a single get_event_history call observes.  repoAvailable
models resolve_calendar_repo_path returning Some; ndjsonExists / ndjson model
existence and content of event_history_by_event.ndjson; indexFileExists /
indexJson model existence and parsed content of the index file (indexJson =
none when reading or JSON-parsing it fails); calendar models the sequence
load_calendar_events yields.  Persisting a rebuilt index never affects the
same call (the in-memory map is used directly), so persistence is not part of
the state. -/
structure World where
  repoAvailable : Bool
  ndjsonExists : Bool
  ndjson : Str
  indexFileExists : Bool
  indexJson : Option Json
  calendar : List CalendarEvent

/-- The json! object the fallback scan builds for one calendar item. -/
def scanPoint (it : CalendarEvent) : Json :=
  Json.obj
    [(lit "date", Json.str it.dt_fmt),
     (lit "time", Json.str it.time_label),
     (lit "actual", Json.str it.actual),
     (lit "forecast", Json.str it.forecast),
     (lit "previous", Json.str it.previous)]

/-- The tail of fn get_event_history: the calendar fallback scan and the two
responses it can produce.  The accompanying Nat is the number of
rebuild_index_and_persist cycles the call has performed. -/
def fallback_scan (w : World) (event cur event_id period : Str) (rebuilds : Nat) :
    Json × Nat :=
  let points :=
    (w.calendar.filter (fun it =>
      toUpperStr it.currency = cur && rustTrim it.event = event)).map scanPoint
  if points.isEmpty then
    (Json.obj
      [(lit "ok", Json.bool false),
       (lit "eventId", Json.str event_id),
       (lit "metric", Json.str event),
       (lit "cur", Json.str cur),
       (lit "message",
        Json.str (lit "No history points found in the event history index or loaded calendar window."))],
     rebuilds)
  else
    (Json.obj
      [(lit "ok", Json.bool true),
       (lit "eventId", Json.str event_id),
       (lit "metric", Json.str event),
       (lit "frequency", Json.str (detect_frequency event)),
       (lit "period", Json.str period),
       (lit "cur", Json.str cur),
       (lit "points", Json.arr points),
       (lit "cached", Json.bool false)],
     rebuilds)

/-- The json! success object of the index path (both the first attempt and the
post-rebuild retry build exactly this). -/
def success_response (payload : Json) (points : List Json)
    (event event_id metric period cur : Str) : Json :=
  Json.obj
    [(lit "ok", Json.bool true),
     (lit "eventId", Json.str (((payload.get (lit "eventId")).bind Json.as_str).getD event_id)),
     (lit "metric", Json.str metric),
     (lit "frequency", Json.str (detect_frequency event)),
     (lit "period", Json.str period),
     (lit "cur", Json.str cur),
     (lit "points", Json.arr points),
     (lit "cached", Json.bool true)]

/-- The candidate-offset search
candidates.iter().find_map(|key| index.get(key).copied()). -/
def findCandidateOffset : List Str → HMap → Option Nat
  | [], _ => none
  | c :: cs, m =>
    match hmGet m c with
    | some v => some v
    | none => findCandidateOffset cs m

/-- The body of the `if let Some(index) = index` block of fn
get_event_history: try the candidate keys, read and verify at a hit; when the
verified read fails, run exactly one rebuild-and-persist cycle and retry the
lookup and the verified read once; every other outcome falls through to the
calendar scan.  rebuilds0 counts the rebuild-and-persist cycles already
performed before this block (1 when the index file was missing or failed to
load and was rebuilt, 0 otherwise). -/
def lookup_with_index (parse : Str → Option Json) (w : World) (idx : HMap)
    (candidates : List Str) (event cur event_id metric period : Str)
    (rebuilds0 : Nat) : Json × Nat :=
  match findCandidateOffset candidates idx with
  | none => fallback_scan w event cur event_id period rebuilds0
  | some offset =>
    match read_payload_at_offset parse w.ndjson offset candidates with
    | some payload =>
      let points := points_from_payload payload
      if points.isEmpty then fallback_scan w event cur event_id period rebuilds0
      else (success_response payload points event event_id metric period cur, rebuilds0)
    | none =>
      let fresh_index := build_index_from_ndjson parse w.ndjson
      match findCandidateOffset candidates fresh_index with
      | none => fallback_scan w event cur event_id period (rebuilds0 + 1)
      | some offset2 =>
        match read_payload_at_offset parse w.ndjson offset2 candidates with
        | some payload2 =>
          let points2 := points_from_payload payload2
          if points2.isEmpty then fallback_scan w event cur event_id period (rebuilds0 + 1)
          else (success_response payload2 points2 event event_id metric period cur,
            rebuilds0 + 1)
        | none => fallback_scan w event cur event_id period (rebuilds0 + 1)

/-- fn get_event_history.  The returned Nat instruments the number of
rebuild-and-persist cycles (calls to rebuild_index_and_persist) the call
performed; the Json component is the command's response.  rebuild's best-effort
persistence and its Option (I/O errors only) are modelled as described at
build_index_from_ndjson. -/
def get_event_history (parse : Str → Option Json) (w : World) (payload : Json) :
    Json × Nat :=
  let event := rustTrim (((payload.get (lit "event")).bind Json.as_str).getD [])
  let cur := toUpperStr (rustTrim (((payload.get (lit "cur")).bind Json.as_str).getD []))
  if event.isEmpty || cur.isEmpty then
    (Json.obj [(lit "ok", Json.bool false),
      (lit "message", Json.str (lit "event and cur are required"))], 0)
  else if !w.repoAvailable then
    (Json.obj [(lit "ok", Json.bool false),
      (lit "message",
       Json.str (lit "Calendar repo is not available yet. Run Pull first."))], 0)
  else
    let t := build_event_id cur event
    let event_id := t.1
    let metric := t.2.1
    let period := t.2.2
    let candidates := [event_id, toLowerStr event_id, normalize_event_id event_id]
    if w.ndjsonExists then
      match (if w.indexFileExists then load_event_history_index w.indexJson else none) with
      | some idx =>
        lookup_with_index parse w idx candidates event cur event_id metric period 0
      | none =>
        lookup_with_index parse w (build_index_from_ndjson parse w.ndjson) candidates
          event cur event_id metric period 1
    else fallback_scan w event cur event_id period 0

/-! ## Theorems -/

/-- Concrete log content for the C2 witness. -/
def c2line : Str := lit "\x7b\"eventId\":\"USD::CPI m/m::m/m\",\"points\":[]\x7d"

/-- Concrete payload for the C2 witness. -/
def c2payload : Json :=
  Json.obj [(lit "eventId", Json.str (lit "USD::CPI m/m::m/m")),
    (lit "points", Json.arr [])]

/-- Concrete parse function (the restriction of serde_json to the inputs the
C2 witness exercises). -/
def c2parse : Str → Option Json := fun l => if l = c2line then some c2payload else none

/-- A log payload holding exactly one tuple row (used to state per-row
properties of the point decoder). -/
def payloadOfRow (items : List Json) : Json :=
  Json.obj [(lit "points", Json.arr [Json.arr items])]

def rowTail (items : List Json) : Str × Str :=
  if 9 ≤ items.length then (to_text items (items.length - 2), to_text items (items.length - 1))
  else if 8 ≤ items.length then ([], to_text items (items.length - 1))
  else ([], [])

/-- A concrete 9-element row for the C5 witness. -/
def c5row9 : List Json :=
  [Json.str (lit "d"), Json.str (lit "t"), Json.str (lit "a"), Json.str (lit "f"),
   Json.str (lit "p"), Json.str (lit "araw"), Json.str (lit "praw"),
   Json.str (lit "revised"), Json.str (lit "Jan")]

/-- A tuple row whose five mandatory fields are all empty strings (C4
counterexample input). -/
def c4row : List Json :=
  [Json.str [], Json.str [], Json.str [], Json.str [], Json.str []]

/-- A log line contributes key k when it is non-blank, parses, carries a
string eventId, and k is one of that eventId's three variants. -/
def lineYields (parse : Str → Option Json) (line k : Str) : Prop :=
  ¬ (rustTrim line).isEmpty = true ∧
    ∃ pl id, parse line = some pl ∧
      (pl.get (lit "eventId")).bind Json.as_str = some id ∧
      k ∈ [id, toLowerStr id, normalize_event_id id]

/-- The byte cursor after i lines when it started at off0. -/
def scanOffset (lines : List Str) (off0 : Nat) (i : Nat) : Nat :=
  (lines.take i).foldl (fun o l => satAdd o (utf8Len l)) off0

/-- First log line of the C9/C10 witness world. -/
def c9line1 : Str := lit "\x7b\"eventId\":\"AAA\"\x7d\n"

/-- A malformed middle line. -/
def c9line2 : Str := lit "oops\n"

/-- Third log line of the C9/C10 witness world. -/
def c9line3 : Str := lit "\x7b\"eventId\":\"BBB\"\x7d\n"

/-- Log content with a malformed line between two well-formed ones. -/
def c9content : Str := c9line1 ++ c9line2 ++ c9line3

/-- The parsed form of c9line1. -/
def c9pl1 : Json := Json.obj [(lit "eventId", Json.str (lit "AAA"))]

/-- The parsed form of c9line3. -/
def c9pl3 : Json := Json.obj [(lit "eventId", Json.str (lit "BBB"))]

/-- Restriction of serde_json to the C9 witness log: the middle line fails to
parse. -/
def c9parse : Str → Option Json := fun l =>
  if l = c9line1 then some c9pl1
  else if l = c9line3 then some c9pl3
  else none

/-- The request object get_event_history receives. -/
def reqOf (ev cu : Str) : Json :=
  Json.obj [(lit "event", Json.str ev), (lit "cur", Json.str cu)]

/-- The candidate-key list built for an event id. -/
def candidatesOf (eid : Str) : List Str :=
  [eid, toLowerStr eid, normalize_event_id eid]

/-- Index file whose only key is unrelated to any candidate (C1
counterexample world). -/
def c1idxJson : Json := Json.obj [(lit "index", Json.obj [(lit "zzz", Json.num 0)])]

/-- World for the C1 counterexample: the log and a valid index file exist, but
the index has no entry for the request's candidate keys. -/
def c1world : World :=
  { repoAvailable := true, ndjsonExists := true, ndjson := c9line1,
    indexFileExists := true, indexJson := some c1idxJson, calendar := [] }

/-- Log line of the stale-offset witness world. -/
def cxLogLine : Str :=
  lit "\x7b\"eventId\":\"USD::CPI m/m::m/m\",\"points\":[[\"2024-01-10\",\"13:30\",\"3.1%\",\"3.0%\",\"2.9%\"]]\x7d\n"

/-- Parsed form of cxLogLine. -/
def cxPayload : Json :=
  Json.obj [(lit "eventId", Json.str (lit "USD::CPI m/m::m/m")),
    (lit "points", Json.arr [Json.arr [Json.str (lit "2024-01-10"),
      Json.str (lit "13:30"), Json.str (lit "3.1%"), Json.str (lit "3.0%"),
      Json.str (lit "2.9%")]])]

/-- Restriction of serde_json to the stale-offset witness world: only the
full log line parses. -/
def cxParse : Str → Option Json := fun l => if l = cxLogLine then some cxPayload else none

/-- Index file holding the right key at a stale offset (50 bytes, mid-line). -/
def c1staleIdxJson : Json :=
  Json.obj [(lit "index", Json.obj [(lit "USD::CPI m/m::m/m", Json.num 50)])]

/-- World for the C1 witness: valid index file, stale offset. -/
def c1staleWorld : World :=
  { repoAvailable := true, ndjsonExists := true, ndjson := cxLogLine,
    indexFileExists := true, indexJson := some c1staleIdxJson, calendar := [] }

/-- The map load_event_history_index builds from c1staleIdxJson. -/
def c1staleMap : HMap :=
  [(lit "USD::CPI m/m::m/m", 50), (lit "usd::cpi m/m::m/m", 50)]

/-- Calendar item for the C7 counterexample world. -/
def c7cal : CalendarEvent :=
  { currency := lit "usd", event := lit "CPI (Jan)",
    dt_fmt := lit "2024-01-10", time_label := lit "13:30", importance := [],
    actual := lit "3.1%", forecast := [], previous := [] }

/-- World for the C7 counterexample: no log, one matching calendar item. -/
def c7world : World :=
  { repoAvailable := true, ndjsonExists := false, ndjson := [],
    indexFileExists := false, indexJson := none, calendar := [c7cal] }

/-- World for the C8 counterexample and witness: repo present, empty log file,
no index file, empty calendar window. -/
def c8world : World :=
  { repoAvailable := true, ndjsonExists := true, ndjson := [],
    indexFileExists := false, indexJson := none, calendar := [] }

/-- Apply f to the first element only. -/
def mapHead (f : Str → Str) : List Str → List Str
  | [] => []
  | p :: ps => f p :: ps

/-- Apply f to the last element only. -/
def mapLast (f : Str → Str) : List Str → List Str
  | [] => []
  | [p] => [f p]
  | p :: ps => p :: mapLast f ps

theorem event_id_matches_iff (candidate actual : Str) :
    event_id_matches candidate actual = true ↔
      candidate = actual ∨ eqIgnoreAsciiCase candidate actual = true ∨
        normalize_event_id candidate = normalize_event_id actual := by
  simp [event_id_matches, Bool.or_eq_true, decide_eq_true_eq, or_assoc]

/-- C2: read_payload_at_offset returns a record only when that record's
eventId matches at least one candidate key by exact equality, ASCII
case-insensitive equality, or equality of normalized forms; a record matching
no candidate under all three comparisons is never returned, so a stale or
wrong offset never yields data for a different event. -/
theorem read_payload_at_offset_verifies (parse : Str → Option Json) (content : Str)
    (offset : Nat) (candidates : List Str) (payload : Json)
    (h : read_payload_at_offset parse content offset candidates = some payload) :
    ∃ id, (payload.get (lit "eventId")).bind Json.as_str = some id ∧
      ∃ c ∈ candidates, c = id ∨ eqIgnoreAsciiCase c id = true ∨
        normalize_event_id c = normalize_event_id id := by
  unfold read_payload_at_offset at h
  split at h
  · exact absurd h (by simp)
  · split at h
    · exact absurd h (by simp)
    · split at h
      · next pl hm =>
        cases h
        unfold payload_event_id_matches at hm
        split at hm
        · exact absurd hm (by simp)
        · next actual hid =>
          rcases List.any_eq_true.mp hm with ⟨c, hc, hmatch⟩
          exact ⟨actual, hid, c, hc, (event_id_matches_iff c actual).mp hmatch⟩
      · exact absurd h (by simp)

/-- Witness for C2 at a concrete read that succeeds. -/
theorem read_payload_at_offset_verifies_witness :
    ∃ id, (c2payload.get (lit "eventId")).bind Json.as_str = some id ∧
      ∃ c ∈ [lit "usd::cpi m/m::m/m"], c = id ∨ eqIgnoreAsciiCase c id = true ∨
        normalize_event_id c = normalize_event_id id :=
  read_payload_at_offset_verifies c2parse c2line 0 [lit "usd::cpi m/m::m/m"] c2payload (by rfl)

theorem points_of_short_row (items : List Json) (h : items.length < 5) :
    points_from_payload (payloadOfRow items) = [] := by
  unfold points_from_payload payloadOfRow
  simp [Json.get, Json.as_array, List.find?, Json.as_array, h]

theorem points_of_long_row (items : List Json) (h : ¬ items.length < 5) :
    points_from_payload (payloadOfRow items) = [rowJson items] := by
  unfold points_from_payload payloadOfRow
  simp [Json.get, Json.as_array, List.find?, Json.as_array, h]

theorem rowJson_get_previousRevisedFrom (items : List Json) :
    (rowJson items).get (lit "previousRevisedFrom") =
      some (emptyToNull (rowTail items).1) := rfl

theorem rowJson_get_period (items : List Json) :
    (rowJson items).get (lit "period") =
      some (emptyToNull (rowTail items).2) := rfl

/-- C5: tuple rows shorter than 5 are discarded; rows of length at least 7
take actualRaw from index 5 and previousRaw from index 6; rows of length at
least 9 take previousRevisedFrom from the second-to-last element and period
from the last; rows of exactly length 8 take only period from the last
element; rows of length 5 to 7 leave previousRevisedFrom and period absent. -/
theorem points_from_payload_row_layout (items : List Json) :
    (items.length < 5 → points_from_payload (payloadOfRow items) = []) ∧
    (5 ≤ items.length →
      ∃ p, points_from_payload (payloadOfRow items) = [p] ∧
        (7 ≤ items.length →
          p.get (lit "actualRaw") = some (emptyToNull (to_text items 5)) ∧
          p.get (lit "previousRaw") = some (emptyToNull (to_text items 6))) ∧
        (9 ≤ items.length →
          p.get (lit "previousRevisedFrom") =
            some (emptyToNull (to_text items (items.length - 2))) ∧
          p.get (lit "period") =
            some (emptyToNull (to_text items (items.length - 1)))) ∧
        (items.length = 8 →
          p.get (lit "previousRevisedFrom") = some Json.null ∧
          p.get (lit "period") = some (emptyToNull (to_text items 7))) ∧
        (items.length < 8 →
          p.get (lit "previousRevisedFrom") = some Json.null ∧
          p.get (lit "period") = some Json.null)) := by
  constructor
  · exact points_of_short_row items
  · intro h5
    refine ⟨rowJson items, points_of_long_row items (by omega), ?_, ?_, ?_, ?_⟩
    · intro h7
      constructor
      · show (rowJson items).get (lit "actualRaw") = _
        have : (rowJson items).get (lit "actualRaw") =
            some (emptyToNull (if 7 ≤ items.length then to_text items 5 else [])) := rfl
        rw [this, if_pos h7]
      · have : (rowJson items).get (lit "previousRaw") =
            some (emptyToNull (if 7 ≤ items.length then to_text items 6 else [])) := rfl
        rw [this, if_pos h7]
    · intro h9
      constructor
      · rw [rowJson_get_previousRevisedFrom]
        unfold rowTail
        rw [if_pos h9]
      · rw [rowJson_get_period]
        unfold rowTail
        rw [if_pos h9]
    · intro h8
      constructor
      · rw [rowJson_get_previousRevisedFrom]
        unfold rowTail
        rw [if_neg (by omega), if_pos (by omega)]
        rfl
      · rw [rowJson_get_period]
        unfold rowTail
        rw [if_neg (by omega), if_pos (by omega)]
        simp [h8]
    · intro h8
      constructor
      · rw [rowJson_get_previousRevisedFrom]
        unfold rowTail
        rw [if_neg (by omega), if_neg (by omega)]
        rfl
      · rw [rowJson_get_period]
        unfold rowTail
        rw [if_neg (by omega), if_neg (by omega)]
        rfl

/-- Witness for C5: the 9-element row of the spec decodes
previousRevisedFrom = "revised" and period = "Jan", its truncation to 5
elements decodes both as absent, and a 4-element row is discarded. -/
theorem points_from_payload_row_layout_witness :
    (points_from_payload (payloadOfRow (c5row9.take 4)) = []) ∧
    (∃ p, points_from_payload (payloadOfRow c5row9) = [p] ∧
      p.get (lit "previousRevisedFrom") = some (Json.str (lit "revised")) ∧
      p.get (lit "period") = some (Json.str (lit "Jan"))) ∧
    (∃ p, points_from_payload (payloadOfRow (c5row9.take 5)) = [p] ∧
      p.get (lit "previousRevisedFrom") = some Json.null ∧
      p.get (lit "period") = some Json.null) := by
  refine ⟨(points_from_payload_row_layout (c5row9.take 4)).1 (by decide), ?_, ?_⟩
  · obtain ⟨p, hp, _, h9, _, _⟩ :=
      (points_from_payload_row_layout c5row9).2 (by decide)
    obtain ⟨h1, h2⟩ := h9 (by decide)
    exact ⟨p, hp, by rw [h1]; rfl, by rw [h2]; rfl⟩
  · obtain ⟨p, hp, _, _, _, hlt⟩ :=
      (points_from_payload_row_layout (c5row9.take 5)).2 (by decide)
    obtain ⟨h1, h2⟩ := hlt (by decide)
    exact ⟨p, hp, h1, h2⟩

theorem trimR_cons (c : Char) (rest : Str) :
    trimR (c :: rest) =
      match trimR rest with
      | [] => if isWS c then [] else [c]
      | r => c :: r := rfl

theorem trimL_cons (c : Char) (rest : Str) :
    trimL (c :: rest) = if isWS c then trimL rest else c :: rest := by
  simp only [trimL, List.dropWhile_cons]

theorem trimR_eq_nil_iff (l : Str) : trimR l = [] ↔ l.all isWS := by
  induction l with
  | nil => simp [trimR]
  | cons c rest ih =>
    rw [trimR_cons]
    cases h : trimR rest with
    | nil =>
      simp only [List.all_cons, Bool.and_eq_true]
      by_cases hc : isWS c = true
      · simp [hc, ih.mp h]
      · simp [hc]
    | cons r rs =>
      have hnall : ¬ rest.all isWS = true := fun hall => by
        rw [ih.mpr hall] at h; exact List.noConfusion h
      simp [List.all_cons, hnall]

theorem trimL_eq_nil_of_all (l : Str) (h : l.all isWS) : trimL l = [] := by
  induction l with
  | nil => rfl
  | cons c rest ih =>
    simp only [List.all_cons, Bool.and_eq_true] at h
    rw [trimL_cons, if_pos h.1]
    exact ih h.2

theorem trimR_idem (l : Str) : trimR (trimR l) = trimR l := by
  induction l with
  | nil => rfl
  | cons c rest ih =>
    rw [trimR_cons]
    cases h : trimR rest with
    | nil =>
      by_cases hc : isWS c = true
      · rw [if_pos hc]
        rfl
      · rw [if_neg hc]
        show (if isWS c = true then ([] : Str) else [c]) = [c]
        rw [if_neg hc]
    | cons r rs =>
      show trimR (c :: r :: rs) = c :: r :: rs
      rw [h] at ih
      rw [trimR_cons, ih]

theorem trimL_idem (l : Str) : trimL (trimL l) = trimL l := by
  induction l with
  | nil => rfl
  | cons c rest ih =>
    rw [trimL_cons]
    by_cases hc : isWS c = true
    · rw [if_pos hc]
      exact ih
    · rw [if_neg hc, trimL_cons, if_neg hc]

theorem trimL_trimR_comm (l : Str) : trimL (trimR l) = trimR (trimL l) := by
  induction l with
  | nil => rfl
  | cons c rest ih =>
    rw [trimR_cons, trimL_cons]
    cases h : trimR rest with
    | nil =>
      dsimp only
      by_cases hc : isWS c = true
      · rw [if_pos hc, if_pos hc, trimL_eq_nil_of_all rest ((trimR_eq_nil_iff rest).mp h)]
        rfl
      · rw [if_neg hc, if_neg hc, trimL_cons, if_neg hc, trimR_cons, h]
        dsimp only
        rw [if_neg hc]
    | cons r rs =>
      dsimp only
      by_cases hc : isWS c = true
      · rw [trimL_cons, if_pos hc, if_pos hc]
        rw [h] at ih
        exact ih
      · rw [trimL_cons, if_neg hc, if_neg hc, trimR_cons, h]

theorem rustTrim_idem (l : Str) : rustTrim (rustTrim l) = rustTrim l := by
  unfold rustTrim
  rw [trimL_trimR_comm (trimL (trimR l)), trimL_idem, ← trimL_trimR_comm, trimR_idem]

/-- C4 counterexample: a decoded field that is an empty string after trimming
is NOT always represented as absent.  For a 5-element row of empty strings the
decoded point carries date as the empty string, not as null. -/
theorem date_field_empty_string_not_null :
    points_from_payload (payloadOfRow c4row) = [rowJson c4row] ∧
    (rowJson c4row).get (lit "date") = some (Json.str []) ∧
    Json.str [] ≠ Json.null := by
  refine ⟨rfl, rfl, ?_⟩
  simp

theorem rowJson_get_date (items : List Json) :
    (rowJson items).get (lit "date") = some (Json.str (to_text items 0)) := rfl

theorem rowJson_get_time (items : List Json) :
    (rowJson items).get (lit "time") = some (Json.str (to_text items 1)) := rfl

theorem rowJson_get_actual (items : List Json) :
    (rowJson items).get (lit "actual") = some (Json.str (to_text items 2)) := rfl

theorem rowJson_get_forecast (items : List Json) :
    (rowJson items).get (lit "forecast") = some (Json.str (to_text items 3)) := rfl

theorem rowJson_get_previous (items : List Json) :
    (rowJson items).get (lit "previous") = some (Json.str (to_text items 4)) := rfl

theorem rowJson_get_actualRaw (items : List Json) :
    (rowJson items).get (lit "actualRaw") =
      some (emptyToNull (if 7 ≤ items.length then to_text items 5 else [])) := rfl

theorem rowJson_get_previousRaw (items : List Json) :
    (rowJson items).get (lit "previousRaw") =
      some (emptyToNull (if 7 ≤ items.length then to_text items 6 else [])) := rfl

theorem to_text_trimmed (items : List Json) (i : Nat) :
    rustTrim (to_text items i) = to_text items i := rustTrim_idem _

theorem emptyToNull_spec (x : Str) (hx : rustTrim x = x) :
    emptyToNull x = Json.null ∨
      (emptyToNull x = Json.str x ∧ x ≠ [] ∧ rustTrim x = x) := by
  unfold emptyToNull
  by_cases h : x.isEmpty
  · left
    rw [if_pos h]
  · right
    rw [if_neg h]
    exact ⟨rfl, by simpa [List.isEmpty_iff] using h, hx⟩

theorem ite_to_text_trimmed (c : Prop) [Decidable c] (items : List Json) (i : Nat) :
    rustTrim (if c then to_text items i else []) = (if c then to_text items i else []) := by
  split
  · exact to_text_trimmed items i
  · rfl

theorem rowTail_fst_trimmed (items : List Json) :
    rustTrim (rowTail items).1 = (rowTail items).1 := by
  unfold rowTail
  split
  · exact to_text_trimmed _ _
  · split
    · rfl
    · rfl

theorem rowTail_snd_trimmed (items : List Json) :
    rustTrim (rowTail items).2 = (rowTail items).2 := by
  unfold rowTail
  split
  · exact to_text_trimmed _ _
  · split
    · exact to_text_trimmed _ _
    · rfl

theorem mem_points_from_payload (payload p : Json)
    (hp : p ∈ points_from_payload payload) :
    ∃ items : List Json, ¬ items.length < 5 ∧ p = rowJson items := by
  unfold points_from_payload at hp
  split at hp
  · exact absurd hp (by simp)
  · next rows hrows =>
    rcases List.mem_filterMap.mp hp with ⟨row, _, hf⟩
    split at hf
    · exact absurd hf (by simp)
    · next items hitems =>
      split at hf
      · exact absurd hf (by simp)
      · next hlen => exact ⟨items, hlen, (Option.some.inj hf).symm⟩

/-- C4 (amended): on the index path the four optional fields (actualRaw,
previousRaw, previousRevisedFrom, period) of every decoded point are null
whenever their decoded value trims to empty and are never emitted as empty
strings, while the five positional fields (date, time, actual, forecast,
previous) are always emitted as trimmed strings, possibly empty, never null;
on the fallback path a point carries exactly the five positional fields with
the calendar item's strings unchanged and has no optional fields at all. -/
theorem point_field_null_discipline (payload p : Json)
    (hp : p ∈ points_from_payload payload) :
    ((p.get (lit "actualRaw") = some Json.null ∨
       ∃ s, p.get (lit "actualRaw") = some (Json.str s) ∧ s ≠ [] ∧ rustTrim s = s) ∧
     (p.get (lit "previousRaw") = some Json.null ∨
       ∃ s, p.get (lit "previousRaw") = some (Json.str s) ∧ s ≠ [] ∧ rustTrim s = s) ∧
     (p.get (lit "previousRevisedFrom") = some Json.null ∨
       ∃ s, p.get (lit "previousRevisedFrom") = some (Json.str s) ∧ s ≠ [] ∧ rustTrim s = s) ∧
     (p.get (lit "period") = some Json.null ∨
       ∃ s, p.get (lit "period") = some (Json.str s) ∧ s ≠ [] ∧ rustTrim s = s) ∧
     (∃ s, p.get (lit "date") = some (Json.str s) ∧ rustTrim s = s) ∧
     (∃ s, p.get (lit "time") = some (Json.str s) ∧ rustTrim s = s) ∧
     (∃ s, p.get (lit "actual") = some (Json.str s) ∧ rustTrim s = s) ∧
     (∃ s, p.get (lit "forecast") = some (Json.str s) ∧ rustTrim s = s) ∧
     (∃ s, p.get (lit "previous") = some (Json.str s) ∧ rustTrim s = s)) ∧
    (∀ it : CalendarEvent,
      (scanPoint it).get (lit "date") = some (Json.str it.dt_fmt) ∧
      (scanPoint it).get (lit "actual") = some (Json.str it.actual) ∧
      (scanPoint it).get (lit "actualRaw") = none ∧
      (scanPoint it).get (lit "period") = none) := by
  obtain ⟨items, _, rfl⟩ := mem_points_from_payload payload p hp
  refine ⟨⟨?_, ?_, ?_, ?_, ?_, ?_, ?_, ?_, ?_⟩, ?_⟩
  · rw [rowJson_get_actualRaw]
    rcases emptyToNull_spec _ (ite_to_text_trimmed (7 ≤ items.length) items 5) with h | ⟨h, h1, h2⟩
    · left; rw [h]
    · right; exact ⟨_, by rw [h], h1, h2⟩
  · rw [rowJson_get_previousRaw]
    rcases emptyToNull_spec _ (ite_to_text_trimmed (7 ≤ items.length) items 6) with h | ⟨h, h1, h2⟩
    · left; rw [h]
    · right; exact ⟨_, by rw [h], h1, h2⟩
  · rw [rowJson_get_previousRevisedFrom]
    rcases emptyToNull_spec _ (rowTail_fst_trimmed items) with h | ⟨h, h1, h2⟩
    · left; rw [h]
    · right; exact ⟨_, by rw [h], h1, h2⟩
  · rw [rowJson_get_period]
    rcases emptyToNull_spec _ (rowTail_snd_trimmed items) with h | ⟨h, h1, h2⟩
    · left; rw [h]
    · right; exact ⟨_, by rw [h], h1, h2⟩
  · exact ⟨_, rowJson_get_date items, to_text_trimmed items 0⟩
  · exact ⟨_, rowJson_get_time items, to_text_trimmed items 1⟩
  · exact ⟨_, rowJson_get_actual items, to_text_trimmed items 2⟩
  · exact ⟨_, rowJson_get_forecast items, to_text_trimmed items 3⟩
  · exact ⟨_, rowJson_get_previous items, to_text_trimmed items 4⟩
  · intro it
    exact ⟨rfl, rfl, rfl, rfl⟩

/-- Witness for C4's amended theorem at a concrete decoded point. -/
theorem point_field_null_discipline_witness :
    ((rowJson c4row).get (lit "period") = some Json.null ∨
      ∃ s, (rowJson c4row).get (lit "period") = some (Json.str s) ∧ s ≠ [] ∧ rustTrim s = s) ∧
    (∃ s, (rowJson c4row).get (lit "date") = some (Json.str s) ∧ rustTrim s = s) :=
  have h := point_field_null_discipline (payloadOfRow c4row) (rowJson c4row)
    (by rw [points_of_long_row c4row (by decide)]; exact List.mem_singleton.mpr rfl)
  ⟨h.1.2.2.2.1, h.1.2.2.2.2.1⟩

/-- C3 counterexample: a name ending in the chain "(Jan) (m/m)" reports the
empty period, not "Jan": the source reads only the literal last parenthesized
group, and "m/m" does not look like a period. -/
theorem period_of_jan_mm_chain_empty :
    (build_event_id (lit "USD") (lit "CPI (Jan) (m/m)")).2.2 = [] ∧
    (build_event_id (lit "USD") (lit "CPI (Jan) (m/m)")).2.2 ≠ lit "Jan" ∧
    strip_known_suffixes (lit "CPI (Jan) (m/m)") = lit "CPI" := by
  refine ⟨by decide, by decide, by decide⟩

theorem rfindIdx_eq_none (p : Char → Bool) (s : Str) (h : ∀ c ∈ s, ¬ p c = true) :
    rfindIdx p s = none := by
  induction s with
  | nil => rfl
  | cons c rest ih =>
    unfold rfindIdx
    rw [ih (fun d hd => h d (List.mem_cons_of_mem c hd))]
    simp [h c (List.mem_cons_self c rest)]

theorem rfindIdx_append_last (p : Char → Bool) (a : Str) (x : Char) (s : Str)
    (hx : p x = true) (hs : ∀ c ∈ s, ¬ p c = true) :
    rfindIdx p (a ++ x :: s) = some a.length := by
  induction a with
  | nil =>
    rw [List.nil_append]
    unfold rfindIdx
    rw [rfindIdx_eq_none p s hs]
    simp [hx]
  | cons c a' ih =>
    show rfindIdx p (c :: (a' ++ x :: s)) = _
    unfold rfindIdx
    rw [ih]
    simp

theorem trimL_append_cons (a : Str) (c : Char) (s : Str) (hc : ¬ isWS c = true) :
    trimL (a ++ c :: s) = trimL a ++ c :: s := by
  induction a with
  | nil => simp [trimL_cons, hc, trimL]
  | cons d a' ih =>
    show trimL (d :: (a' ++ c :: s)) = _
    rw [trimL_cons, trimL_cons]
    by_cases hd : isWS d = true
    · rw [if_pos hd, if_pos hd, ih]
    · rw [if_neg hd, if_neg hd]
      simp

theorem trimR_concat (a : Str) (x : Char) :
    trimR (a ++ [x]) = if isWS x then trimR a else a ++ [x] := by
  induction a with
  | nil =>
    show trimR [x] = _
    rw [trimR_cons]
    rfl
  | cons c a' ih =>
    show trimR (c :: (a' ++ [x])) = _
    rw [trimR_cons, ih]
    by_cases hx : isWS x = true
    · rw [if_pos hx, if_pos hx, ← trimR_cons]
    · rw [if_neg hx, if_neg hx]
      cases a' with
      | nil => rfl
      | cons d a'' => rfl

theorem rustTrim_trimL (t : Str) : rustTrim (trimL t) = rustTrim t := by
  unfold rustTrim
  rw [trimL_trimR_comm t, trimL_trimR_comm (trimL t), trimL_idem]

/-- C3 (amended): the reported period is determined solely by the literal last
parenthesized group of the raw name.  For every name of the form
base ++ "(" ++ t ++ ")" with t free of parentheses, the period is trim(t) when
trim(t) looks like a period and empty otherwise — in particular a name ending
"(Jan) (m/m)" reports the empty period even though the suffix-stripping pass
removes "(m/m)" and then the period-looking "(Jan)" while computing the
metric. -/
theorem build_event_id_period_last_group (cur base t : Str)
    (h1 : '(' ∉ t) :
    (build_event_id cur (base ++ '(' :: (t ++ [')']))).2.2 =
      if looks_like_period (rustTrim t) then rustTrim t else [] := by
  have hraw : rustTrim (base ++ '(' :: (t ++ [')'])) =
      trimL base ++ '(' :: (t ++ [')']) := by
    unfold rustTrim
    have e1 : base ++ '(' :: (t ++ [')']) = (base ++ '(' :: t) ++ [')'] := by simp
    rw [e1, trimR_concat, if_neg (by decide)]
    rw [← e1, trimL_append_cons base '(' (t ++ [')']) (by decide)]
  show (match rfindIdx (fun c => c = ')') (rustTrim (base ++ '(' :: (t ++ [')']))) with
    | none => []
    | some idx =>
      match rfindIdx (fun c => c = '(')
          ((rustTrim (base ++ '(' :: (t ++ [')']))).take (idx + 1)) with
      | none => []
      | some open_idx =>
        let token := rustTrim ((rustTrim (base ++ '(' :: (t ++ [')']))).drop (open_idx + 1))
        match stripSuffixParen token with
        | some stripped =>
          let token2 := rustTrim stripped
          if looks_like_period token2 then token2 else []
        | none => []) = _
  rw [hraw]
  set b := trimL base with hb
  have hclose : rfindIdx (fun c => c = ')') (b ++ '(' :: (t ++ [')'])) =
      some (b ++ '(' :: t).length := by
    have e1 : b ++ '(' :: (t ++ [')']) = (b ++ '(' :: t) ++ ')' :: [] := by simp
    rw [e1]
    exact rfindIdx_append_last _ _ _ _ (by decide) (by intro c hc; cases hc)
  rw [hclose]
  have hlen : (b ++ '(' :: t).length + 1 = (b ++ '(' :: (t ++ [')'])).length := by
    simp
    omega
  dsimp only
  rw [hlen, List.take_length]
  have hopen : rfindIdx (fun c => c = '(') (b ++ '(' :: (t ++ [')'])) =
      some b.length := by
    refine rfindIdx_append_last _ _ _ _ (by decide) ?_
    intro c hc
    rcases List.mem_append.mp hc with hct | hcp
    · intro hcc
      rw [decide_eq_true_eq] at hcc
      subst hcc
      exact h1 hct
    · intro hcc
      rw [decide_eq_true_eq] at hcc
      subst hcc
      simp at hcp
  rw [hopen]
  dsimp only
  have hdrop : (b ++ '(' :: (t ++ [')'])).drop (b.length + 1) = t ++ [')'] := by
    have e1 : b ++ '(' :: (t ++ [')']) = (b ++ ['(']) ++ (t ++ [')']) := by simp
    have e2 : b.length + 1 = (b ++ ['(']).length := by simp
    rw [e1, e2, List.drop_left]
  simp only [hdrop]
  have htoken : rustTrim (t ++ [')']) = trimL t ++ [')'] := by
    unfold rustTrim
    rw [trimR_concat, if_neg (by decide), trimL_append_cons t ')' [] (by decide)]
  rw [htoken]
  have hstrip : stripSuffixParen (trimL t ++ [')']) = some (trimL t) := by
    unfold stripSuffixParen
    rw [List.getLast?_concat, if_pos rfl, List.dropLast_concat]
  rw [hstrip]
  dsimp only
  rw [rustTrim_trimL]

/-- Witness for C3's amended theorem: a final group that is a period token
(here "Jan") is reported, a final group that is a frequency marker (here
"m/m") yields the empty period. -/
theorem build_event_id_period_last_group_witness :
    (build_event_id (lit "USD") (lit "CPI " ++ '(' :: (lit "Jan" ++ [')']))).2.2 =
      (if looks_like_period (rustTrim (lit "Jan")) then rustTrim (lit "Jan") else []) ∧
    (build_event_id (lit "USD") (lit "CPI (Jan) " ++ '(' :: (lit "m/m" ++ [')']))).2.2 =
      (if looks_like_period (rustTrim (lit "m/m")) then rustTrim (lit "m/m") else []) :=
  ⟨build_event_id_period_last_group (lit "USD") (lit "CPI ") (lit "Jan") (by decide),
   build_event_id_period_last_group (lit "USD") (lit "CPI (Jan) ") (lit "m/m") (by decide)⟩

theorem scanOffset_zero (lines : List Str) (off0 : Nat) :
    scanOffset lines off0 0 = off0 := rfl

theorem scanOffset_succ (line : Str) (rest : List Str) (off0 i : Nat) :
    scanOffset (line :: rest) off0 (i + 1) =
      scanOffset rest (satAdd off0 (utf8Len line)) i := rfl

theorem lineStart_eq_scanOffset (lines : List Str) (i : Nat) :
    lineStart lines i = scanOffset lines 0 i := rfl

theorem hmGet_orInsert (m : HMap) (kin k : Str) (vin : Nat) :
    hmGet (orInsert m kin vin) k =
      match hmGet m k with
      | some v => some v
      | none => if k = kin then some vin else none := by
  unfold orInsert
  by_cases hin : (hmGet m kin).isSome = true
  · rw [if_pos hin]
    cases h : hmGet m k with
    | some v => rfl
    | none =>
      by_cases hk : k = kin
      · subst hk
        rw [h] at hin
        exact absurd hin (by simp)
      · simp [hk]
  · rw [if_neg hin]
    have hget : ∀ mm : HMap, hmGet mm k = Option.map (fun x => x.2) (List.find? (fun p => p.1 = k) mm) :=
      fun mm => rfl
    rw [hget, List.find?_append]
    cases h : List.find? (fun p => p.1 = k) m with
    | some p =>
      have h2 : hmGet m k = some p.2 := by rw [hget, h]; rfl
      rw [h2]
      simp
    | none =>
      have h2 : hmGet m k = none := by rw [hget, h]; rfl
      rw [h2]
      simp only [Option.none_or]
      by_cases hk : k = kin
      · subst hk
        simp [List.find?]
      · simp [List.find?, hk, Ne.symm hk]

theorem hmGet_insert_index_variants (m : HMap) (id k : Str) (off : Nat) :
    hmGet (insert_index_variants m id off) k =
      match hmGet m k with
      | some v => some v
      | none =>
        if k ∈ [id, toLowerStr id, normalize_event_id id] then some off else none := by
  unfold insert_index_variants
  rw [hmGet_orInsert, hmGet_orInsert, hmGet_orInsert]
  cases h : hmGet m k with
  | some v => rfl
  | none =>
    by_cases h1 : k = id <;> by_cases h2 : k = toLowerStr id <;>
      by_cases h3 : k = normalize_event_id id <;>
      simp [h1, h2, h3] <;> (repeat' split) <;> simp_all

theorem lineYields_iff (parse : Str → Option Json) (line k : Str)
    (hb : ¬ (rustTrim line).isEmpty = true) (pl : Json) (id : Str)
    (hpl : parse line = some pl)
    (hid : (pl.get (lit "eventId")).bind Json.as_str = some id) :
    lineYields parse line k ↔ k ∈ [id, toLowerStr id, normalize_event_id id] := by
  unfold lineYields
  constructor
  · rintro ⟨-, pl', id', hpl', hid', hk⟩
    rw [hpl] at hpl'
    cases hpl'
    rw [hid] at hid'
    cases hid'
    exact hk
  · intro hk
    exact ⟨hb, pl, id, hpl, hid, hk⟩

theorem lineYields_not_blank (parse : Str → Option Json) (line k : Str)
    (hb : (rustTrim line).isEmpty = true) : ¬ lineYields parse line k :=
  fun h => h.1 hb

theorem lineYields_not_noparse (parse : Str → Option Json) (line k : Str)
    (hpl : parse line = none) : ¬ lineYields parse line k := by
  rintro ⟨-, pl, id, hpl', -, -⟩
  rw [hpl] at hpl'
  exact Option.noConfusion hpl'

theorem lineYields_not_noid (parse : Str → Option Json) (line k : Str) (pl : Json)
    (hpl : parse line = some pl)
    (hid : (pl.get (lit "eventId")).bind Json.as_str = none) :
    ¬ lineYields parse line k := by
  rintro ⟨-, pl', id', hpl', hid', -⟩
  rw [hpl] at hpl'
  cases hpl'
  rw [hid] at hid'
  exact Option.noConfusion hid'

theorem yields_shift (parse : Str → Option Json) (line k : Str) (rest : List Str)
    (v off0 : Nat) (hnot : ¬ lineYields parse line k) :
    (∃ i, i < rest.length ∧ lineYields parse (rest.getD i []) k ∧
      (∀ j, j < i → ¬ lineYields parse (rest.getD j []) k) ∧
      v = scanOffset rest (satAdd off0 (utf8Len line)) i) ↔
    (∃ i, i < (line :: rest).length ∧ lineYields parse ((line :: rest).getD i []) k ∧
      (∀ j, j < i → ¬ lineYields parse ((line :: rest).getD j []) k) ∧
      v = scanOffset (line :: rest) off0 i) := by
  constructor
  · rintro ⟨i, hi, hy, hmin, hv⟩
    refine ⟨i + 1, by simpa using hi, by simpa using hy, ?_, ?_⟩
    · intro j hj
      cases j with
      | zero => simpa using hnot
      | succ j' => simpa using hmin j' (by omega)
    · rw [scanOffset_succ]
      exact hv
  · rintro ⟨i, hi, hy, hmin, hv⟩
    cases i with
    | zero => exact absurd (by simpa using hy) hnot
    | succ i' =>
      refine ⟨i', by simpa using hi, by simpa using hy, ?_, ?_⟩
      · intro j hj
        have := hmin (j + 1) (by omega)
        simpa using this
      · rw [scanOffset_succ] at hv
        exact hv

theorem build_index_go_spec (parse : Str → Option Json) (lines : List Str) :
    ∀ (off0 : Nat) (m0 : HMap) (k : Str) (v : Nat),
    hmGet (build_index_go parse lines off0 m0) k = some v ↔
      hmGet m0 k = some v ∨
      (hmGet m0 k = none ∧ ∃ i, i < lines.length ∧
        lineYields parse (lines.getD i []) k ∧
        (∀ j, j < i → ¬ lineYields parse (lines.getD j []) k) ∧
        v = scanOffset lines off0 i) := by
  induction lines with
  | nil =>
    intro off0 m0 k v
    constructor
    · intro h
      exact Or.inl h
    · rintro (h | ⟨-, i, hi, -⟩)
      · exact h
      · exact absurd hi (Nat.not_lt_zero i)
  | cons line rest ih =>
    intro off0 m0 k v
    show hmGet (build_index_go parse (line :: rest) off0 m0) k = some v ↔ _
    unfold build_index_go
    by_cases hb : (rustTrim line).isEmpty = true
    · rw [if_pos hb]
      rw [ih]
      have hnot := lineYields_not_blank parse line k hb
      constructor
      · rintro (h | ⟨hnone, hex⟩)
        · exact Or.inl h
        · exact Or.inr ⟨hnone, (yields_shift parse line k rest v off0 hnot).mp hex⟩
      · rintro (h | ⟨hnone, hex⟩)
        · exact Or.inl h
        · exact Or.inr ⟨hnone, (yields_shift parse line k rest v off0 hnot).mpr hex⟩
    · rw [if_neg hb]
      simp only []
      cases hpl : parse line with
      | none =>
        dsimp only
        rw [ih]
        have hnot := lineYields_not_noparse parse line k hpl
        constructor
        · rintro (h | ⟨hnone, hex⟩)
          · exact Or.inl h
          · exact Or.inr ⟨hnone, (yields_shift parse line k rest v off0 hnot).mp hex⟩
        · rintro (h | ⟨hnone, hex⟩)
          · exact Or.inl h
          · exact Or.inr ⟨hnone, (yields_shift parse line k rest v off0 hnot).mpr hex⟩
      | some pl =>
        dsimp only
        cases hid : (pl.get (lit "eventId")).bind Json.as_str with
        | none =>
          dsimp only
          rw [ih]
          have hnot := lineYields_not_noid parse line k pl hpl hid
          constructor
          · rintro (h | ⟨hnone, hex⟩)
            · exact Or.inl h
            · exact Or.inr ⟨hnone, (yields_shift parse line k rest v off0 hnot).mp hex⟩
          · rintro (h | ⟨hnone, hex⟩)
            · exact Or.inl h
            · exact Or.inr ⟨hnone, (yields_shift parse line k rest v off0 hnot).mpr hex⟩
        | some id =>
          dsimp only
          rw [ih]
          have hyiff := lineYields_iff parse line k hb pl id hpl hid
          rw [hmGet_insert_index_variants]
          cases hm0 : hmGet m0 k with
          | some w =>
            dsimp only
            constructor
            · rintro (h | ⟨hnone, -⟩)
              · exact Or.inl h
              · exact Option.noConfusion hnone
            · rintro (h | ⟨hnone, -⟩)
              · exact Or.inl h
              · exact Option.noConfusion hnone
          | none =>
            dsimp only
            by_cases hk : k ∈ [id, toLowerStr id, normalize_event_id id]
            · rw [if_pos hk]
              have hy : lineYields parse line k := hyiff.mpr hk
              constructor
              · rintro (h | ⟨hnone, -⟩)
                · refine Or.inr ⟨rfl, 0, by simp, by simpa using hy, ?_, ?_⟩
                  · intro j hj
                    exact absurd hj (Nat.not_lt_zero j)
                  · rw [scanOffset_zero]
                    exact (Option.some.inj h).symm
                · exact Option.noConfusion hnone
              · rintro (h | ⟨-, i, hi, hy2, hmin, hv⟩)
                · exact Option.noConfusion h
                · cases i with
                  | zero =>
                    rw [scanOffset_zero] at hv
                    exact Or.inl (by rw [hv])
                  | succ i' =>
                    exact absurd (by simpa using hy) (by simpa using hmin 0 (Nat.succ_pos i'))
            · rw [if_neg hk]
              have hnot : ¬ lineYields parse line k := fun hy => hk (hyiff.mp hy)
              constructor
              · rintro (h | ⟨-, hex⟩)
                · exact Option.noConfusion h
                · exact Or.inr ⟨rfl, (yields_shift parse line k rest v off0 hnot).mp hex⟩
              · rintro (h | ⟨-, hex⟩)
                · exact Option.noConfusion h
                · exact Or.inr ⟨rfl, (yields_shift parse line k rest v off0 hnot).mpr hex⟩

/-- C10: in the map rebuilt from the log, a key maps to v exactly when v is
the byte offset of the earliest parseable line whose eventId variant set
(raw, lowercase, normalized) contains that key; a later line colliding with an
already-inserted key never overwrites the existing entry. -/
theorem build_index_first_writer_wins (parse : Str → Option Json) (content : Str)
    (k : Str) (v : Nat) :
    hmGet (build_index_from_ndjson parse content) k = some v ↔
      ∃ i, i < (linesOf content).length ∧
        lineYields parse ((linesOf content).getD i []) k ∧
        (∀ j, j < i → ¬ lineYields parse ((linesOf content).getD j []) k) ∧
        v = lineStart (linesOf content) i := by
  unfold build_index_from_ndjson
  rw [build_index_go_spec]
  constructor
  · rintro (h | ⟨-, hex⟩)
    · exact Option.noConfusion h
    · exact hex
  · intro hex
    exact Or.inr ⟨rfl, hex⟩

/-- C9: the rebuild's byte cursor is the sum of the byte lengths of all
preceding lines (including their terminators), blank and malformed lines
included, and a line that fails to parse is skipped without aborting: every
well-formed line's eventId is present in the rebuilt map, at the line-start
offset of the earliest line carrying it as a variant. -/
theorem build_index_survives_malformed_lines (parse : Str → Option Json)
    (content : Str) (i : Nat) (pl : Json) (id : Str)
    (hi : i < (linesOf content).length)
    (hline : ¬ (rustTrim ((linesOf content).getD i [])).isEmpty = true)
    (hpl : parse ((linesOf content).getD i []) = some pl)
    (hid : (pl.get (lit "eventId")).bind Json.as_str = some id) :
    ∃ j v, j ≤ i ∧ hmGet (build_index_from_ndjson parse content) id = some v ∧
      v = lineStart (linesOf content) j ∧
      lineYields parse ((linesOf content).getD j []) id ∧
      ∀ j2, j2 < j → ¬ lineYields parse ((linesOf content).getD j2 []) id := by
  classical
  have hPi : lineYields parse ((linesOf content).getD i []) id :=
    ⟨hline, pl, id, hpl, hid, by simp⟩
  have hex : ∃ n, lineYields parse ((linesOf content).getD n []) id := ⟨i, hPi⟩
  refine ⟨Nat.find hex, lineStart (linesOf content) (Nat.find hex),
    Nat.find_min' hex hPi, ?_, rfl, Nat.find_spec hex,
    fun j2 hj2 => Nat.find_min hex hj2⟩
  unfold build_index_from_ndjson
  rw [build_index_go_spec]
  exact Or.inr ⟨rfl, Nat.find hex,
    lt_of_le_of_lt (Nat.find_min' hex hPi) hi, Nat.find_spec hex,
    fun j hj => Nat.find_min hex hj, rfl⟩

/-- Witness for C9: in a log whose middle line is malformed, the third line's
eventId is indexed at its correct line-start offset (18 + 5 = 23 bytes). -/
theorem build_index_survives_malformed_lines_witness :
    ∃ j v, j ≤ 2 ∧ hmGet (build_index_from_ndjson c9parse c9content) (lit "BBB") = some v ∧
      v = lineStart (linesOf c9content) j ∧
      lineYields c9parse ((linesOf c9content).getD j []) (lit "BBB") ∧
      ∀ j2, j2 < j → ¬ lineYields c9parse ((linesOf c9content).getD j2 []) (lit "BBB") :=
  build_index_survives_malformed_lines c9parse c9content 2 c9pl3 (lit "BBB")
    (by decide) (by decide) (by rfl) (by rfl)

theorem reqOf_event (ev cu : Str) :
    (((reqOf ev cu).get (lit "event")).bind Json.as_str).getD [] = ev := rfl

theorem reqOf_cur (ev cu : Str) :
    (((reqOf ev cu).get (lit "cur")).bind Json.as_str).getD [] = cu := rfl

theorem fallback_scan_snd (w : World) (e c eid per : Str) (r0 : Nat) :
    (fallback_scan w e c eid per r0).2 = r0 := by
  unfold fallback_scan
  dsimp only
  split <;> rfl

theorem lookup_with_index_snd (parse : Str → Option Json) (w : World) (idx : HMap)
    (cands : List Str) (e c eid met per : Str) (r0 : Nat) :
    (lookup_with_index parse w idx cands e c eid met per r0).2 =
      match findCandidateOffset cands idx with
      | none => r0
      | some off =>
        match read_payload_at_offset parse w.ndjson off cands with
        | some _ => r0
        | none => r0 + 1 := by
  unfold lookup_with_index
  cases findCandidateOffset cands idx with
  | none => rw [fallback_scan_snd]
  | some off =>
    dsimp only
    cases read_payload_at_offset parse w.ndjson off cands with
    | some pl =>
      dsimp only
      split
      · rw [fallback_scan_snd]
      · rfl
    | none =>
      dsimp only
      cases findCandidateOffset cands (build_index_from_ndjson parse w.ndjson) with
      | none => rw [fallback_scan_snd]
      | some off2 =>
        dsimp only
        cases read_payload_at_offset parse w.ndjson off2 cands with
        | some pl2 =>
          dsimp only
          split
          · rw [fallback_scan_snd]
          · rfl
        | none => rw [fallback_scan_snd]

theorem get_event_history_loaded_index (parse : Str → Option Json) (w : World)
    (ev cu : Str) (idx : HMap)
    (hrepo : w.repoAvailable = true)
    (hnd : w.ndjsonExists = true)
    (hif : w.indexFileExists = true)
    (hload : load_event_history_index w.indexJson = some idx)
    (hev : (rustTrim ev).isEmpty = false)
    (hcu : (toUpperStr (rustTrim cu)).isEmpty = false) :
    get_event_history parse w (reqOf ev cu) =
      lookup_with_index parse w idx
        (candidatesOf (build_event_id (toUpperStr (rustTrim cu)) (rustTrim ev)).1)
        (rustTrim ev) (toUpperStr (rustTrim cu))
        (build_event_id (toUpperStr (rustTrim cu)) (rustTrim ev)).1
        (build_event_id (toUpperStr (rustTrim cu)) (rustTrim ev)).2.1
        (build_event_id (toUpperStr (rustTrim cu)) (rustTrim ev)).2.2 0 := by
  unfold get_event_history
  simp only [reqOf_event, reqOf_cur, hev, hcu, Bool.or_self, Bool.false_or,
    Bool.or_false, if_false, hrepo, Bool.not_true, hnd, hif, if_true, hload]
  rfl

/-- C1 counterexample: a request that reaches the index path and misses
because the candidate keys are absent from the loaded index triggers NO
rebuild-and-persist cycle at all (the claim demands exactly one); the call
falls directly back to the calendar scan. -/
theorem keys_absent_miss_no_rebuild :
    load_event_history_index c1world.indexJson = some [(lit "zzz", 0)] ∧
    findCandidateOffset (candidatesOf (build_event_id (lit "USD") (lit "CPI")).1)
      [(lit "zzz", 0)] = none ∧
    (get_event_history c9parse c1world (reqOf (lit "CPI") (lit "USD"))).2 = 0 := by
  refine ⟨by rfl, by rfl, by rfl⟩

/-- C1 (amended): with the log present and the index file successfully
loaded, the call performs at most one rebuild-and-persist cycle, and it
performs exactly one precisely when the candidate lookup hits an offset whose
verified read returns no record; a miss because the candidate keys are absent
from the loaded index, or a verified read that returns a record (even one that
decodes to zero points), falls through to the calendar scan with no rebuild. -/
theorem rebuild_retry_exactly_on_failed_verified_read (parse : Str → Option Json)
    (w : World) (ev cu : Str) (idx : HMap)
    (hrepo : w.repoAvailable = true)
    (hnd : w.ndjsonExists = true)
    (hif : w.indexFileExists = true)
    (hload : load_event_history_index w.indexJson = some idx)
    (hev : (rustTrim ev).isEmpty = false)
    (hcu : (toUpperStr (rustTrim cu)).isEmpty = false) :
    ((get_event_history parse w (reqOf ev cu)).2 ≤ 1) ∧
    (∀ off, findCandidateOffset
        (candidatesOf (build_event_id (toUpperStr (rustTrim cu)) (rustTrim ev)).1) idx =
        some off →
      read_payload_at_offset parse w.ndjson off
        (candidatesOf (build_event_id (toUpperStr (rustTrim cu)) (rustTrim ev)).1) = none →
      (get_event_history parse w (reqOf ev cu)).2 = 1) ∧
    (findCandidateOffset
        (candidatesOf (build_event_id (toUpperStr (rustTrim cu)) (rustTrim ev)).1) idx =
        none →
      (get_event_history parse w (reqOf ev cu)).2 = 0) ∧
    (∀ off pl, findCandidateOffset
        (candidatesOf (build_event_id (toUpperStr (rustTrim cu)) (rustTrim ev)).1) idx =
        some off →
      read_payload_at_offset parse w.ndjson off
        (candidatesOf (build_event_id (toUpperStr (rustTrim cu)) (rustTrim ev)).1) =
        some pl →
      (get_event_history parse w (reqOf ev cu)).2 = 0) := by
  rw [get_event_history_loaded_index parse w ev cu idx hrepo hnd hif hload hev hcu,
    lookup_with_index_snd]
  refine ⟨?_, ?_, ?_, ?_⟩
  · cases hf : findCandidateOffset
        (candidatesOf (build_event_id (toUpperStr (rustTrim cu)) (rustTrim ev)).1) idx with
    | none => exact Nat.zero_le 1
    | some off =>
      dsimp only
      cases read_payload_at_offset parse w.ndjson off
          (candidatesOf (build_event_id (toUpperStr (rustTrim cu)) (rustTrim ev)).1) with
      | some pl => exact Nat.zero_le 1
      | none => exact Nat.le_refl 1
  · intro off hf hr
    rw [hf]
    dsimp only
    rw [hr]
  · intro hf
    rw [hf]
  · intro off pl hf hr
    rw [hf]
    dsimp only
    rw [hr]

/-- Witness for C1's amended theorem: a hit at a stale offset whose verified
read fails performs exactly one rebuild-and-persist cycle. -/
theorem rebuild_retry_exactly_on_failed_verified_read_witness :
    (get_event_history cxParse c1staleWorld (reqOf (lit "CPI m/m") (lit "usd"))).2 = 1 :=
  (rebuild_retry_exactly_on_failed_verified_read cxParse c1staleWorld
      (lit "CPI m/m") (lit "usd") c1staleMap rfl rfl rfl (by rfl) (by rfl) (by rfl)).2.1
    50 (by rfl) (by rfl)

theorem fallback_scan_ok_fields (w : World) (e c eid per : Str) (r0 : Nat)
    (h : (fallback_scan w e c eid per r0).1.get (lit "ok") = some (Json.bool true)) :
    (fallback_scan w e c eid per r0).1.get (lit "cached") = some (Json.bool false) ∧
    (fallback_scan w e c eid per r0).1.get (lit "metric") = some (Json.str e) ∧
    (fallback_scan w e c eid per r0).1.get (lit "eventId") = some (Json.str eid) ∧
    (fallback_scan w e c eid per r0).1.get (lit "frequency") =
      some (Json.str (detect_frequency e)) ∧
    (fallback_scan w e c eid per r0).1.get (lit "period") = some (Json.str per) ∧
    (fallback_scan w e c eid per r0).1.get (lit "cur") = some (Json.str c) := by
  unfold fallback_scan at *
  dsimp only at *
  split at h
  · next hempty =>
    rw [hempty] at *
    simp only [if_true] at h
    exact absurd h (by simp [Json.get])
  · next hempty =>
    rw [if_neg hempty] at *
    exact ⟨rfl, rfl, rfl, rfl, rfl, rfl⟩

theorem success_response_ok_fields (pl : Json) (pts : List Json)
    (e eid met per c : Str) :
    (success_response pl pts e eid met per c).get (lit "cached") = some (Json.bool true) ∧
    (success_response pl pts e eid met per c).get (lit "metric") = some (Json.str met) ∧
    (success_response pl pts e eid met per c).get (lit "frequency") =
      some (Json.str (detect_frequency e)) ∧
    (success_response pl pts e eid met per c).get (lit "period") = some (Json.str per) ∧
    (success_response pl pts e eid met per c).get (lit "cur") = some (Json.str c) ∧
    (success_response pl pts e eid met per c).get (lit "eventId") =
      some (Json.str (((pl.get (lit "eventId")).bind Json.as_str).getD eid)) :=
  ⟨rfl, rfl, rfl, rfl, rfl, rfl⟩

theorem lookup_with_index_ok_fields (parse : Str → Option Json) (w : World)
    (idx : HMap) (cands : List Str) (e c eid met per : Str) (r0 : Nat)
    (h : (lookup_with_index parse w idx cands e c eid met per r0).1.get (lit "ok") =
      some (Json.bool true)) :
    ((lookup_with_index parse w idx cands e c eid met per r0).1.get (lit "frequency") =
      some (Json.str (detect_frequency e)) ∧
     (lookup_with_index parse w idx cands e c eid met per r0).1.get (lit "period") =
      some (Json.str per) ∧
     (lookup_with_index parse w idx cands e c eid met per r0).1.get (lit "cur") =
      some (Json.str c)) ∧
    (((lookup_with_index parse w idx cands e c eid met per r0).1.get (lit "cached") =
        some (Json.bool true) ∧
      (lookup_with_index parse w idx cands e c eid met per r0).1.get (lit "metric") =
        some (Json.str met) ∧
      ∃ off pl, read_payload_at_offset parse w.ndjson off cands = some pl ∧
        (points_from_payload pl).isEmpty = false ∧
        (lookup_with_index parse w idx cands e c eid met per r0).1.get (lit "eventId") =
          some (Json.str (((pl.get (lit "eventId")).bind Json.as_str).getD eid))) ∨
     ((lookup_with_index parse w idx cands e c eid met per r0).1.get (lit "cached") =
        some (Json.bool false) ∧
      (lookup_with_index parse w idx cands e c eid met per r0).1.get (lit "metric") =
        some (Json.str e) ∧
      (lookup_with_index parse w idx cands e c eid met per r0).1.get (lit "eventId") =
        some (Json.str eid))) := by
  unfold lookup_with_index at *
  cases hf : findCandidateOffset cands idx with
  | none =>
    rw [hf] at h
    dsimp only at h ⊢
    have hfb := fallback_scan_ok_fields w e c eid per r0 h
    exact ⟨⟨hfb.2.2.2.1, hfb.2.2.2.2.1, hfb.2.2.2.2.2⟩,
      Or.inr ⟨hfb.1, hfb.2.1, hfb.2.2.1⟩⟩
  | some off =>
    rw [hf] at h
    dsimp only at h ⊢
    cases hr : read_payload_at_offset parse w.ndjson off cands with
    | some pl =>
      rw [hr] at h
      dsimp only at h ⊢
      by_cases hempty : (points_from_payload pl).isEmpty = true
      · rw [if_pos hempty] at h ⊢
        have hfb := fallback_scan_ok_fields w e c eid per r0 h
        exact ⟨⟨hfb.2.2.2.1, hfb.2.2.2.2.1, hfb.2.2.2.2.2⟩,
          Or.inr ⟨hfb.1, hfb.2.1, hfb.2.2.1⟩⟩
      · rw [if_neg hempty] at h ⊢
        have hs := success_response_ok_fields pl (points_from_payload pl) e eid met per c
        refine ⟨⟨hs.2.2.1, hs.2.2.2.1, hs.2.2.2.2.1⟩,
          Or.inl ⟨hs.1, hs.2.1, off, pl, hr, ?_, hs.2.2.2.2.2⟩⟩
        cases hx : (points_from_payload pl).isEmpty
        · rfl
        · exact absurd hx hempty
    | none =>
      rw [hr] at h
      dsimp only at h ⊢
      cases hf2 : findCandidateOffset cands (build_index_from_ndjson parse w.ndjson) with
      | none =>
        rw [hf2] at h
        dsimp only at h ⊢
        have hfb := fallback_scan_ok_fields w e c eid per (r0 + 1) h
        exact ⟨⟨hfb.2.2.2.1, hfb.2.2.2.2.1, hfb.2.2.2.2.2⟩,
          Or.inr ⟨hfb.1, hfb.2.1, hfb.2.2.1⟩⟩
      | some off2 =>
        rw [hf2] at h
        dsimp only at h ⊢
        cases hr2 : read_payload_at_offset parse w.ndjson off2 cands with
        | some pl2 =>
          rw [hr2] at h
          dsimp only at h ⊢
          by_cases hempty : (points_from_payload pl2).isEmpty = true
          · rw [if_pos hempty] at h ⊢
            have hfb := fallback_scan_ok_fields w e c eid per (r0 + 1) h
            exact ⟨⟨hfb.2.2.2.1, hfb.2.2.2.2.1, hfb.2.2.2.2.2⟩,
              Or.inr ⟨hfb.1, hfb.2.1, hfb.2.2.1⟩⟩
          · rw [if_neg hempty] at h ⊢
            have hs := success_response_ok_fields pl2 (points_from_payload pl2) e eid met per c
            refine ⟨⟨hs.2.2.1, hs.2.2.2.1, hs.2.2.2.2.1⟩,
              Or.inl ⟨hs.1, hs.2.1, off2, pl2, hr2, ?_, hs.2.2.2.2.2⟩⟩
            cases hx : (points_from_payload pl2).isEmpty
            · rfl
            · exact absurd hx hempty
        | none =>
          rw [hr2] at h
          dsimp only at h ⊢
          have hfb := fallback_scan_ok_fields w e c eid per (r0 + 1) h
          exact ⟨⟨hfb.2.2.2.1, hfb.2.2.2.2.1, hfb.2.2.2.2.2⟩,
            Or.inr ⟨hfb.1, hfb.2.1, hfb.2.2.1⟩⟩

/-- C7 counterexample: a successful fallback response carries the raw event
name as its metric field, not the metric computed by the key codec ("CPI"),
so a successful response does not always carry the computed metric. -/
theorem fallback_metric_is_raw_event_name :
    (get_event_history cxParse c7world (reqOf (lit "CPI (Jan)") (lit "USD"))).1.get
      (lit "ok") = some (Json.bool true) ∧
    (get_event_history cxParse c7world (reqOf (lit "CPI (Jan)") (lit "USD"))).1.get
      (lit "metric") = some (Json.str (lit "CPI (Jan)")) ∧
    (build_event_id (lit "USD") (lit "CPI (Jan)")).2.1 = lit "CPI" ∧
    lit "CPI (Jan)" ≠ lit "CPI" := by
  refine ⟨by rfl, by rfl, by decide, by decide⟩

theorem get_event_history_reduce (parse : Str → Option Json) (w : World)
    (ev cu : Str)
    (hrepo : w.repoAvailable = true)
    (hev : (rustTrim ev).isEmpty = false)
    (hcu : (toUpperStr (rustTrim cu)).isEmpty = false) :
    get_event_history parse w (reqOf ev cu) =
      if w.ndjsonExists then
        match (if w.indexFileExists then load_event_history_index w.indexJson else none) with
        | some idx =>
          lookup_with_index parse w idx
            (candidatesOf (build_event_id (toUpperStr (rustTrim cu)) (rustTrim ev)).1)
            (rustTrim ev) (toUpperStr (rustTrim cu))
            (build_event_id (toUpperStr (rustTrim cu)) (rustTrim ev)).1
            (build_event_id (toUpperStr (rustTrim cu)) (rustTrim ev)).2.1
            (build_event_id (toUpperStr (rustTrim cu)) (rustTrim ev)).2.2 0
        | none =>
          lookup_with_index parse w (build_index_from_ndjson parse w.ndjson)
            (candidatesOf (build_event_id (toUpperStr (rustTrim cu)) (rustTrim ev)).1)
            (rustTrim ev) (toUpperStr (rustTrim cu))
            (build_event_id (toUpperStr (rustTrim cu)) (rustTrim ev)).1
            (build_event_id (toUpperStr (rustTrim cu)) (rustTrim ev)).2.1
            (build_event_id (toUpperStr (rustTrim cu)) (rustTrim ev)).2.2 1
      else
        fallback_scan w (rustTrim ev) (toUpperStr (rustTrim cu))
          (build_event_id (toUpperStr (rustTrim cu)) (rustTrim ev)).1
          (build_event_id (toUpperStr (rustTrim cu)) (rustTrim ev)).2.2 0 := by
  unfold get_event_history
  simp only [reqOf_event, reqOf_cur, hev, hcu, Bool.or_self, Bool.false_or,
    Bool.or_false, if_false, hrepo, Bool.not_true]
  rfl

/-- C7 (amended): every successful response carries the computed frequency,
period and currency; a response satisfied via the index path has cached =
true, carries the computed metric, and carries the eventId of the verified
record that produced it (defaulting to the computed id when the record lacks
one); a response satisfied via the fallback scan has cached = false, carries
the computed eventId, but carries the raw trimmed event name as its metric,
not the computed metric. -/
theorem response_field_provenance (parse : Str → Option Json) (w : World)
    (ev cu : Str)
    (hrepo : w.repoAvailable = true)
    (hev : (rustTrim ev).isEmpty = false)
    (hcu : (toUpperStr (rustTrim cu)).isEmpty = false)
    (hok : (get_event_history parse w (reqOf ev cu)).1.get (lit "ok") =
      some (Json.bool true)) :
    ((get_event_history parse w (reqOf ev cu)).1.get (lit "frequency") =
      some (Json.str (detect_frequency (rustTrim ev))) ∧
     (get_event_history parse w (reqOf ev cu)).1.get (lit "period") =
      some (Json.str (build_event_id (toUpperStr (rustTrim cu)) (rustTrim ev)).2.2) ∧
     (get_event_history parse w (reqOf ev cu)).1.get (lit "cur") =
      some (Json.str (toUpperStr (rustTrim cu)))) ∧
    (((get_event_history parse w (reqOf ev cu)).1.get (lit "cached") =
        some (Json.bool true) ∧
      (get_event_history parse w (reqOf ev cu)).1.get (lit "metric") =
        some (Json.str (build_event_id (toUpperStr (rustTrim cu)) (rustTrim ev)).2.1) ∧
      ∃ off pl, read_payload_at_offset parse w.ndjson off
          (candidatesOf (build_event_id (toUpperStr (rustTrim cu)) (rustTrim ev)).1) =
          some pl ∧
        (points_from_payload pl).isEmpty = false ∧
        (get_event_history parse w (reqOf ev cu)).1.get (lit "eventId") =
          some (Json.str (((pl.get (lit "eventId")).bind Json.as_str).getD
            (build_event_id (toUpperStr (rustTrim cu)) (rustTrim ev)).1))) ∨
     ((get_event_history parse w (reqOf ev cu)).1.get (lit "cached") =
        some (Json.bool false) ∧
      (get_event_history parse w (reqOf ev cu)).1.get (lit "metric") =
        some (Json.str (rustTrim ev)) ∧
      (get_event_history parse w (reqOf ev cu)).1.get (lit "eventId") =
        some (Json.str (build_event_id (toUpperStr (rustTrim cu)) (rustTrim ev)).1))) := by
  have hred := get_event_history_reduce parse w ev cu hrepo hev hcu
  rw [hred] at hok ⊢
  cases hnd : w.ndjsonExists with
  | false =>
    rw [hnd] at hok
    simp only [Bool.false_eq_true, if_false] at hok ⊢
    have hfb := fallback_scan_ok_fields w (rustTrim ev) (toUpperStr (rustTrim cu))
      (build_event_id (toUpperStr (rustTrim cu)) (rustTrim ev)).1
      (build_event_id (toUpperStr (rustTrim cu)) (rustTrim ev)).2.2 0 hok
    exact ⟨⟨hfb.2.2.2.1, hfb.2.2.2.2.1, hfb.2.2.2.2.2⟩,
      Or.inr ⟨hfb.1, hfb.2.1, hfb.2.2.1⟩⟩
  | true =>
    rw [hnd] at hok
    simp only [eq_self_iff_true, if_true] at hok ⊢
    cases hidx : (if w.indexFileExists then load_event_history_index w.indexJson else none) with
    | some idx =>
      rw [hidx] at hok
      exact lookup_with_index_ok_fields parse w idx _ _ _ _ _ _ 0 hok
    | none =>
      rw [hidx] at hok
      exact lookup_with_index_ok_fields parse w _ _ _ _ _ _ _ 1 hok

/-- Witness for C7's amended theorem at the fallback world. -/
theorem response_field_provenance_witness :
    ((get_event_history cxParse c7world (reqOf (lit "CPI (Jan)") (lit "USD"))).1.get
        (lit "frequency") = some (Json.str (detect_frequency (rustTrim (lit "CPI (Jan)")))) ∧
     (get_event_history cxParse c7world (reqOf (lit "CPI (Jan)") (lit "USD"))).1.get
        (lit "period") = some (Json.str
          (build_event_id (toUpperStr (rustTrim (lit "USD"))) (rustTrim (lit "CPI (Jan)"))).2.2) ∧
     (get_event_history cxParse c7world (reqOf (lit "CPI (Jan)") (lit "USD"))).1.get
        (lit "cur") = some (Json.str (toUpperStr (rustTrim (lit "USD"))))) ∧
    (((get_event_history cxParse c7world (reqOf (lit "CPI (Jan)") (lit "USD"))).1.get
        (lit "cached") = some (Json.bool true) ∧
      (get_event_history cxParse c7world (reqOf (lit "CPI (Jan)") (lit "USD"))).1.get
        (lit "metric") = some (Json.str
          (build_event_id (toUpperStr (rustTrim (lit "USD"))) (rustTrim (lit "CPI (Jan)"))).2.1) ∧
      ∃ off pl, read_payload_at_offset cxParse c7world.ndjson off
          (candidatesOf (build_event_id (toUpperStr (rustTrim (lit "USD")))
            (rustTrim (lit "CPI (Jan)"))).1) = some pl ∧
        (points_from_payload pl).isEmpty = false ∧
        (get_event_history cxParse c7world (reqOf (lit "CPI (Jan)") (lit "USD"))).1.get
          (lit "eventId") = some (Json.str (((pl.get (lit "eventId")).bind Json.as_str).getD
            (build_event_id (toUpperStr (rustTrim (lit "USD"))) (rustTrim (lit "CPI (Jan)"))).1))) ∨
     ((get_event_history cxParse c7world (reqOf (lit "CPI (Jan)") (lit "USD"))).1.get
        (lit "cached") = some (Json.bool false) ∧
      (get_event_history cxParse c7world (reqOf (lit "CPI (Jan)") (lit "USD"))).1.get
        (lit "metric") = some (Json.str (rustTrim (lit "CPI (Jan)"))) ∧
      (get_event_history cxParse c7world (reqOf (lit "CPI (Jan)") (lit "USD"))).1.get
        (lit "eventId") = some (Json.str
          (build_event_id (toUpperStr (rustTrim (lit "USD"))) (rustTrim (lit "CPI (Jan)"))).1))) :=
  response_field_provenance cxParse c7world (lit "CPI (Jan)") (lit "USD")
    rfl (by rfl) (by rfl) (by rfl)

theorem lookup_with_index_all_reads_fail (parse : Str → Option Json) (w : World)
    (idx : HMap) (cands : List Str) (e c eid met per : Str) (r0 : Nat)
    (hread : ∀ off, read_payload_at_offset parse w.ndjson off cands = none) :
    ∃ r1, lookup_with_index parse w idx cands e c eid met per r0 =
      fallback_scan w e c eid per r1 := by
  unfold lookup_with_index
  cases findCandidateOffset cands idx with
  | none => exact ⟨r0, rfl⟩
  | some off =>
    dsimp only
    rw [hread off]
    cases findCandidateOffset cands (build_index_from_ndjson parse w.ndjson) with
    | none => exact ⟨r0 + 1, rfl⟩
    | some off2 =>
      dsimp only
      rw [hread off2]
      exact ⟨r0 + 1, rfl⟩

theorem fallback_scan_not_found (w : World) (e c eid per : Str) (r0 : Nat)
    (hcal : ∀ it ∈ w.calendar,
      ¬ (toUpperStr it.currency = c ∧ rustTrim it.event = e)) :
    (fallback_scan w e c eid per r0).1.get (lit "ok") = some (Json.bool false) ∧
    (fallback_scan w e c eid per r0).1.get (lit "eventId") = some (Json.str eid) ∧
    (fallback_scan w e c eid per r0).1.get (lit "points") = none := by
  have hfilter : w.calendar.filter
      (fun it => toUpperStr it.currency = c && rustTrim it.event = e) = [] := by
    rw [List.filter_eq_nil_iff]
    intro it hit
    have hne := hcal it hit
    simp only [Bool.and_eq_true, decide_eq_true_eq]
    intro hcontra
    exact hne hcontra
  unfold fallback_scan
  dsimp only
  rw [hfilter]
  exact ⟨rfl, rfl, rfl⟩

theorem build_event_id_fst_ne_nil (c e : Str) : (build_event_id c e).1 ≠ [] := by
  unfold build_event_id
  dsimp only
  intro h
  rw [List.append_eq_nil] at h
  rcases h with ⟨-, h⟩
  split at h
  · exact List.noConfusion h
  · next hc => exact hc h

/-- C8 (amended): a well-formed request whose currency/event combination is
absent from both the log (every offset-verified read misses) and the calendar
source returns a structured not-found result with ok = false and a non-empty
computed eventId, but the response carries NO points field at all rather than
an empty points array. -/
theorem not_found_response_shape (parse : Str → Option Json) (w : World)
    (ev cu : Str)
    (hrepo : w.repoAvailable = true)
    (hev : (rustTrim ev).isEmpty = false)
    (hcu : (toUpperStr (rustTrim cu)).isEmpty = false)
    (hread : ∀ off, read_payload_at_offset parse w.ndjson off
        (candidatesOf (build_event_id (toUpperStr (rustTrim cu)) (rustTrim ev)).1) = none)
    (hcal : ∀ it ∈ w.calendar,
      ¬ (toUpperStr it.currency = toUpperStr (rustTrim cu) ∧
         rustTrim it.event = rustTrim ev)) :
    (get_event_history parse w (reqOf ev cu)).1.get (lit "ok") =
      some (Json.bool false) ∧
    (get_event_history parse w (reqOf ev cu)).1.get (lit "eventId") =
      some (Json.str (build_event_id (toUpperStr (rustTrim cu)) (rustTrim ev)).1) ∧
    (build_event_id (toUpperStr (rustTrim cu)) (rustTrim ev)).1 ≠ [] ∧
    (get_event_history parse w (reqOf ev cu)).1.get (lit "points") = none := by
  rw [get_event_history_reduce parse w ev cu hrepo hev hcu]
  cases hnd : w.ndjsonExists with
  | false =>
    simp only [Bool.false_eq_true, if_false]
    have hfb := fallback_scan_not_found w (rustTrim ev) (toUpperStr (rustTrim cu))
      (build_event_id (toUpperStr (rustTrim cu)) (rustTrim ev)).1
      (build_event_id (toUpperStr (rustTrim cu)) (rustTrim ev)).2.2 0 hcal
    exact ⟨hfb.1, hfb.2.1, build_event_id_fst_ne_nil _ _, hfb.2.2⟩
  | true =>
    simp only [eq_self_iff_true, if_true]
    cases hidx : (if w.indexFileExists then load_event_history_index w.indexJson else none) with
    | some idx =>
      dsimp only
      obtain ⟨r1, heq⟩ := lookup_with_index_all_reads_fail parse w idx
        (candidatesOf (build_event_id (toUpperStr (rustTrim cu)) (rustTrim ev)).1)
        (rustTrim ev) (toUpperStr (rustTrim cu))
        (build_event_id (toUpperStr (rustTrim cu)) (rustTrim ev)).1
        (build_event_id (toUpperStr (rustTrim cu)) (rustTrim ev)).2.1
        (build_event_id (toUpperStr (rustTrim cu)) (rustTrim ev)).2.2 0 hread
      rw [heq]
      have hfb := fallback_scan_not_found w (rustTrim ev) (toUpperStr (rustTrim cu))
        (build_event_id (toUpperStr (rustTrim cu)) (rustTrim ev)).1
        (build_event_id (toUpperStr (rustTrim cu)) (rustTrim ev)).2.2 r1 hcal
      exact ⟨hfb.1, hfb.2.1, build_event_id_fst_ne_nil _ _, hfb.2.2⟩
    | none =>
      dsimp only
      obtain ⟨r1, heq⟩ := lookup_with_index_all_reads_fail parse w
        (build_index_from_ndjson parse w.ndjson)
        (candidatesOf (build_event_id (toUpperStr (rustTrim cu)) (rustTrim ev)).1)
        (rustTrim ev) (toUpperStr (rustTrim cu))
        (build_event_id (toUpperStr (rustTrim cu)) (rustTrim ev)).1
        (build_event_id (toUpperStr (rustTrim cu)) (rustTrim ev)).2.1
        (build_event_id (toUpperStr (rustTrim cu)) (rustTrim ev)).2.2 1 hread
      rw [heq]
      have hfb := fallback_scan_not_found w (rustTrim ev) (toUpperStr (rustTrim cu))
        (build_event_id (toUpperStr (rustTrim cu)) (rustTrim ev)).1
        (build_event_id (toUpperStr (rustTrim cu)) (rustTrim ev)).2.2 r1 hcal
      exact ⟨hfb.1, hfb.2.1, build_event_id_fst_ne_nil _ _, hfb.2.2⟩

/-- C8 counterexample: the not-found response of a combination absent from
both log and calendar has NO points field at all — the claim's promised empty
points array does not exist in the response. -/
theorem not_found_has_no_points_field :
    (get_event_history cxParse c8world (reqOf (lit "CPI m/m") (lit "usd"))).1.get
      (lit "ok") = some (Json.bool false) ∧
    (get_event_history cxParse c8world (reqOf (lit "CPI m/m") (lit "usd"))).1.get
      (lit "points") = none := by
  exact ⟨by rfl, by rfl⟩

/-- Witness for C8's amended theorem at the empty-log empty-calendar world. -/
theorem not_found_response_shape_witness :
    (get_event_history cxParse c8world (reqOf (lit "CPI m/m") (lit "usd"))).1.get
      (lit "ok") = some (Json.bool false) ∧
    (get_event_history cxParse c8world (reqOf (lit "CPI m/m") (lit "usd"))).1.get
      (lit "eventId") = some (Json.str
        (build_event_id (toUpperStr (rustTrim (lit "usd"))) (rustTrim (lit "CPI m/m"))).1) ∧
    (build_event_id (toUpperStr (rustTrim (lit "usd"))) (rustTrim (lit "CPI m/m"))).1 ≠ [] ∧
    (get_event_history cxParse c8world (reqOf (lit "CPI m/m") (lit "usd"))).1.get
      (lit "points") = none :=
  not_found_response_shape cxParse c8world (lit "CPI m/m") (lit "usd")
    rfl (by rfl) (by rfl)
    (fun off => match off with
      | 0 => rfl
      | _ + 1 => rfl)
    (fun it hit => absurd hit (List.not_mem_nil it))

theorem char_eq_of_toNat_eq {a b : Char} (h : a.toNat = b.toNat) : a = b :=
  Char.eq_of_val_eq (UInt32.ext h)

theorem toLower_toNat (c : Char) :
    c.toLower.toNat = if c.toNat ≥ 65 ∧ c.toNat ≤ 90 then c.toNat + 32 else c.toNat := by
  show (Char.toLower c).toNat = _
  unfold Char.toLower
  by_cases h : c.toNat ≥ 65 ∧ c.toNat ≤ 90
  · rw [if_pos h, if_pos h]
    have hv : Nat.isValidChar (c.toNat + 32) := by
      left
      omega
    simp [Char.ofNat, hv]
    rfl
  · rw [if_neg h, if_neg h]

theorem toLower_toLower (c : Char) : c.toLower.toLower = c.toLower := by
  apply char_eq_of_toNat_eq
  rw [toLower_toNat, toLower_toNat]
  by_cases h : c.toNat ≥ 65 ∧ c.toNat ≤ 90 <;> simp [h] <;> omega

theorem toLower_eq_colon_iff (c : Char) : c.toLower = ':' ↔ c = ':' := by
  constructor
  · intro hc
    apply char_eq_of_toNat_eq
    have := congrArg Char.toNat hc
    rw [toLower_toNat] at this
    have hcolon : (':' : Char).toNat = 58 := rfl
    rw [hcolon]
    by_cases h : c.toNat ≥ 65 ∧ c.toNat ≤ 90
    · rw [if_pos h] at this
      rw [hcolon] at this
      omega
    · rwa [if_neg h] at this
  · intro hc
    subst hc
    rfl

theorem isWS_iff_toNat (c : Char) :
    isWS c = true ↔ (c.toNat = 32 ∨ c.toNat = 9 ∨ c.toNat = 13 ∨ c.toNat = 10) := by
  unfold isWS Char.isWhitespace
  simp only [Bool.or_eq_true, decide_eq_true_eq]
  constructor
  · rintro (((h | h) | h) | h) <;> rw [h] <;> simp
  · rintro (h | h | h | h)
    · exact Or.inl (Or.inl (Or.inl (char_eq_of_toNat_eq (show c.toNat = Char.toNat ' ' from h))))
    · exact Or.inl (Or.inl (Or.inr (char_eq_of_toNat_eq (show c.toNat = Char.toNat '\t' from h))))
    · exact Or.inl (Or.inr (char_eq_of_toNat_eq (show c.toNat = Char.toNat '\r' from h)))
    · exact Or.inr (char_eq_of_toNat_eq (show c.toNat = Char.toNat '\n' from h))

theorem isWS_toLower (c : Char) : isWS c.toLower = isWS c := by
  by_cases h : isWS c = true
  · have hn := (isWS_iff_toNat c).mp h
    have : c.toLower = c := by
      apply char_eq_of_toNat_eq
      rw [toLower_toNat, if_neg (by omega)]
    rw [this]
  · have hn : ¬ (c.toNat = 32 ∨ c.toNat = 9 ∨ c.toNat = 13 ∨ c.toNat = 10) :=
      fun hc => h ((isWS_iff_toNat c).mpr hc)
    have h2 : isWS c.toLower = false := by
      cases hx : isWS c.toLower
      · rfl
      · exfalso
        have := (isWS_iff_toNat c.toLower).mp hx
        rw [toLower_toNat] at this
        by_cases hr : c.toNat ≥ 65 ∧ c.toNat ≤ 90
        · rw [if_pos hr] at this
          omega
        · rw [if_neg hr] at this
          exact hn this
    rw [h2]
    cases hx : isWS c
    · rfl
    · exact absurd hx h

theorem toLowerStr_toLowerStr (l : Str) : toLowerStr (toLowerStr l) = toLowerStr l := by
  unfold toLowerStr
  rw [List.map_map]
  exact List.map_congr_left (fun c _ => toLower_toLower c)

theorem toLowerStr_eq_nil_iff (l : Str) : toLowerStr l = [] ↔ l = [] := by
  unfold toLowerStr
  exact List.map_eq_nil_iff

theorem trimL_toLowerStr (l : Str) : trimL (toLowerStr l) = toLowerStr (trimL l) := by
  induction l with
  | nil => rfl
  | cons c rest ih =>
    show trimL (c.toLower :: toLowerStr rest) = toLowerStr (trimL (c :: rest))
    rw [trimL_cons, trimL_cons, isWS_toLower]
    by_cases hc : isWS c = true
    · rw [if_pos hc, if_pos hc, ih]
    · rw [if_neg hc, if_neg hc]
      rfl

theorem trimR_toLowerStr (l : Str) : trimR (toLowerStr l) = toLowerStr (trimR l) := by
  induction l with
  | nil => rfl
  | cons c rest ih =>
    show trimR (c.toLower :: toLowerStr rest) = toLowerStr (trimR (c :: rest))
    rw [trimR_cons, trimR_cons, ih]
    cases h : trimR rest with
    | nil =>
      show (if isWS c.toLower = true then [] else [c.toLower]) = toLowerStr _
      rw [isWS_toLower]
      by_cases hc : isWS c = true
      · rw [if_pos hc, if_pos hc]
        rfl
      · rw [if_neg hc, if_neg hc]
        rfl
    | cons r rs => rfl

theorem rustTrim_toLowerStr (l : Str) : rustTrim (toLowerStr l) = toLowerStr (rustTrim l) := by
  unfold rustTrim
  rw [trimR_toLowerStr, trimL_toLowerStr]

theorem toLowerStr_fixed (l : Str) (h : ∀ c ∈ l, c.toLower = c) : toLowerStr l = l := by
  induction l with
  | nil => rfl
  | cons c rest ih =>
    show c.toLower :: toLowerStr rest = c :: rest
    rw [h c (List.mem_cons_self c rest), ih (fun d hd => h d (List.mem_cons_of_mem c hd))]

theorem mem_toLowerStr_lower_fixed (l : Str) (c : Char) (h : c ∈ toLowerStr l) :
    c.toLower = c := by
  unfold toLowerStr at h
  rcases List.mem_map.mp h with ⟨d, -, rfl⟩
  exact toLower_toLower d

theorem hasCP_cons_cons (a b : Char) (rest : Str) :
    hasCP (a :: b :: rest) = ((a = ':' && b = ':') || hasCP (b :: rest)) := rfl

theorem hasCP_append_right (a b : Str) (h : hasCP b = true) : hasCP (a ++ b) = true := by
  induction a with
  | nil => exact h
  | cons c a' ih =>
    cases ha : a' ++ b with
    | nil =>
      exfalso
      rcases List.append_eq_nil.mp ha with ⟨-, hb⟩
      rw [hb] at h
      exact Bool.noConfusion h
    | cons d t =>
      show hasCP (c :: a' ++ b) = true
      rw [List.cons_append, ha, hasCP_cons_cons, ← ha, ih]
      simp

theorem hasCP_append_left (a b : Str) (h : hasCP a = true) : hasCP (a ++ b) = true := by
  induction a with
  | nil => exact Bool.noConfusion h
  | cons c a' ih =>
    cases a' with
    | nil => exact Bool.noConfusion h
    | cons d t =>
      rw [hasCP_cons_cons] at h
      simp only [Bool.or_eq_true] at h
      rcases h with h1 | h2
      · show hasCP (c :: d :: (t ++ b)) = true
        rw [hasCP_cons_cons, h1]
        rfl
      · have := ih h2
        show hasCP (c :: d :: (t ++ b)) = true
        rw [hasCP_cons_cons]
        rw [List.cons_append] at this
        rw [this]
        simp

theorem hasCP_trimL (l : Str) (h : hasCP l = false) : hasCP (trimL l) = false := by
  cases hx : hasCP (trimL l) with
  | false => rfl
  | true =>
    exfalso
    have : hasCP (l.takeWhile isWS ++ trimL l) = true := hasCP_append_right _ _ hx
    unfold trimL at this
    rw [List.takeWhile_append_dropWhile] at this
    rw [h] at this
    exact Bool.noConfusion this

theorem trimR_append_ws (l : Str) : ∃ ws, l = trimR l ++ ws := by
  induction l with
  | nil => exact ⟨[], rfl⟩
  | cons c rest ih =>
    rcases ih with ⟨ws, hws⟩
    cases h : trimR rest with
    | nil =>
      rw [h, List.nil_append] at hws
      by_cases hc : isWS c = true
      · refine ⟨c :: rest, ?_⟩
        rw [trimR_cons, h]
        dsimp only
        rw [if_pos hc]
        rfl
      · refine ⟨ws, ?_⟩
        rw [trimR_cons, h]
        dsimp only
        rw [if_neg hc, hws]
        rfl
    | cons r rs =>
      rw [h] at hws
      refine ⟨ws, ?_⟩
      rw [trimR_cons, h]
      dsimp only
      rw [hws]
      rfl

theorem hasCP_trimR (l : Str) (h : hasCP l = false) : hasCP (trimR l) = false := by
  cases hx : hasCP (trimR l) with
  | false => rfl
  | true =>
    exfalso
    rcases trimR_append_ws l with ⟨ws, hws⟩
    have : hasCP l = true := by
      rw [hws]
      exact hasCP_append_left _ _ hx
    rw [h] at this
    exact Bool.noConfusion this

theorem hasCP_rustTrim (l : Str) (h : hasCP l = false) : hasCP (rustTrim l) = false :=
  hasCP_trimL _ (hasCP_trimR l h)

theorem hasCP_toLowerStr (l : Str) : hasCP (toLowerStr l) = hasCP l := by
  induction l with
  | nil => rfl
  | cons c rest ih =>
    cases rest with
    | nil => rfl
    | cons d t =>
      show hasCP (c.toLower :: d.toLower :: toLowerStr t) = _
      rw [hasCP_cons_cons, hasCP_cons_cons]
      have h1 : (decide (c.toLower = ':')) = (decide (c = ':')) := by
        rw [decide_eq_decide]
        exact toLower_eq_colon_iff c
      have h2 : (decide (d.toLower = ':')) = (decide (d = ':')) := by
        rw [decide_eq_decide]
        exact toLower_eq_colon_iff d
      rw [h1, h2]
      rw [show hasCP (d.toLower :: toLowerStr t) = hasCP (toLowerStr (d :: t)) from rfl, ih]

theorem endsColon_toLowerStr (l : Str) : endsColon (toLowerStr l) = endsColon l := by
  induction l with
  | nil => rfl
  | cons c rest ih =>
    cases rest with
    | nil =>
      show endsColon [c.toLower] = endsColon [c]
      unfold endsColon
      rw [decide_eq_decide]
      exact toLower_eq_colon_iff c
    | cons d t =>
      show endsColon (c.toLower :: d.toLower :: toLowerStr t) = endsColon (c :: d :: t)
      unfold endsColon
      exact ih

theorem splitOnDC_cons_cons (a b : Char) (rest : Str) :
    splitOnDC (a :: b :: rest) =
      if a = ':' ∧ b = ':' then [] :: splitOnDC rest
      else
        match splitOnDC (b :: rest) with
        | [] => [[a]]
        | p :: ps => (a :: p) :: ps := rfl

theorem splitOnDC_ne_nil (l : Str) : splitOnDC l ≠ [] := by
  induction l using splitOnDC.induct with
  | case1 => exact fun h => List.noConfusion h
  | case2 c => exact fun h => List.noConfusion h
  | case3 a b rest hab ih =>
    rw [splitOnDC_cons_cons, if_pos hab]
    exact fun h => List.noConfusion h
  | case4 a b rest hab hsplit ih =>
    rw [splitOnDC_cons_cons, if_neg hab, hsplit]
    exact fun hh => List.noConfusion hh
  | case5 a b rest hab p ps hsplit ih =>
    rw [splitOnDC_cons_cons, if_neg hab, hsplit]
    exact fun hh => List.noConfusion hh

theorem hasCP_cons_false (a : Char) (rest : Str) (h : hasCP (a :: rest) = false) :
    hasCP rest = false := by
  cases rest with
  | nil => rfl
  | cons b t =>
    rw [hasCP_cons_cons] at h
    exact (Bool.or_eq_false_iff.mp h).2

theorem hasCP_all_ws (l : Str) (h : l.all isWS) : hasCP l = false := by
  induction l with
  | nil => rfl
  | cons c rest ih =>
    simp only [List.all_cons, Bool.and_eq_true] at h
    cases rest with
    | nil => rfl
    | cons d t =>
      rw [hasCP_cons_cons]
      have hd : ¬ d = ':' := by
        intro hd
        subst hd
        simp only [List.all_cons, Bool.and_eq_true] at h
        exact absurd h.2.1 (by decide)
      simp only [Bool.or_eq_false_iff]
      exact ⟨by simp [hd], ih h.2⟩

theorem splitOnDC_of_no_cp (l : Str) (h : hasCP l = false) : splitOnDC l = [l] := by
  induction l using splitOnDC.induct with
  | case1 => rfl
  | case2 c => rfl
  | case3 a b rest hab ih =>
    exfalso
    rcases hab with ⟨ha, hb⟩
    subst ha
    subst hb
    rw [hasCP_cons_cons] at h
    simp at h
  | case4 a b rest hab hsplit ih =>
    exact absurd hsplit (splitOnDC_ne_nil _)
  | case5 a b rest hab p ps hsplit ih =>
    have hsub : hasCP (b :: rest) = false := hasCP_cons_false a _ h
    rw [splitOnDC_cons_cons, if_neg hab, hsplit]
    rw [ih hsub] at hsplit
    cases hsplit
    rfl

theorem splitOnDC_singleton (l p : Str) (h : splitOnDC l = [p]) : p = l := by
  induction l using splitOnDC.induct generalizing p with
  | case1 => cases h; rfl
  | case2 c => cases h; rfl
  | case3 a b rest hab ih =>
    rw [splitOnDC_cons_cons, if_pos hab] at h
    have := List.cons.inj h
    exact absurd this.2 (splitOnDC_ne_nil rest)
  | case4 a b rest hab hsplit ih =>
    exact absurd hsplit (splitOnDC_ne_nil _)
  | case5 a b rest hab q qs hsplit ih =>
    rw [splitOnDC_cons_cons, if_neg hab, hsplit] at h
    have h2 := List.cons.inj h
    rcases h2 with ⟨hp, hqs⟩
    subst hqs
    rw [ih q hsplit] at hp
    exact hp.symm

theorem splitOnDC_head_shape (l p : Str) (ps : List Str)
    (h : splitOnDC l = p :: ps) : p = [] ∨ ∃ c t, p = c :: t ∧ l.head? = some c := by
  cases l with
  | nil =>
    cases h
    exact Or.inl rfl
  | cons a rest =>
    cases rest with
    | nil =>
      cases h
      exact Or.inr ⟨a, [], rfl, rfl⟩
    | cons b t =>
      rw [splitOnDC_cons_cons] at h
      by_cases hab : a = ':' ∧ b = ':'
      · rw [if_pos hab] at h
        exact Or.inl (List.cons.inj h).1.symm
      · rw [if_neg hab] at h
        cases hs : splitOnDC (b :: t) with
        | nil => exact absurd hs (splitOnDC_ne_nil _)
        | cons q qs =>
          rw [hs] at h
          exact Or.inr ⟨a, q, (List.cons.inj h).1.symm, rfl⟩

theorem splitOnDC_parts_no_cp (l : Str) : ∀ p ∈ splitOnDC l, hasCP p = false := by
  induction l using splitOnDC.induct with
  | case1 =>
    intro p hp
    cases hp with
    | head => rfl
    | tail _ h => cases h
  | case2 c =>
    intro p hp
    cases hp with
    | head => rfl
    | tail _ h => cases h
  | case3 a b rest hab ih =>
    intro p hp
    rw [splitOnDC_cons_cons, if_pos hab] at hp
    cases hp with
    | head => rfl
    | tail _ h => exact ih p h
  | case4 a b rest hab hsplit ih =>
    exact absurd hsplit (splitOnDC_ne_nil _)
  | case5 a b rest hab q qs hsplit ih =>
    intro p hp
    rw [splitOnDC_cons_cons, if_neg hab, hsplit] at hp
    cases hp with
    | tail _ h => exact ih p (hsplit ▸ List.mem_cons_of_mem q h)
    | head =>
      have hq : hasCP q = false := ih q (hsplit ▸ List.mem_cons_self q qs)
      rcases splitOnDC_head_shape (b :: rest) q qs hsplit with hnil | ⟨c, t, hqc, hc⟩
      · subst hnil
        rfl
      · have hcb : c = b := by
          injection hc with hc
          exact hc.symm
        subst hcb
        subst hqc
        rw [hasCP_cons_cons]
        simp only [Bool.or_eq_false_iff]
        constructor
        · cases hdec : (decide (a = ':') && decide (c = ':'))
          · rfl
          · exfalso
            simp only [Bool.and_eq_true, decide_eq_true_eq] at hdec
            exact hab hdec
        · exact hq

theorem splitOnDC_append_sep (a b : Str) (hcp : hasCP a = false)
    (hec : endsColon a = false) :
    splitOnDC (a ++ ':' :: ':' :: b) = a :: splitOnDC b := by
  induction a with
  | nil =>
    show splitOnDC (':' :: ':' :: b) = [] :: splitOnDC b
    rw [splitOnDC_cons_cons, if_pos ⟨rfl, rfl⟩]
  | cons c a' ih =>
    cases a' with
    | nil =>
      have hc : ¬ c = ':' := by
        intro hc
        subst hc
        exact Bool.noConfusion hec
      show splitOnDC (c :: ':' :: ':' :: b) = [c] :: splitOnDC b
      rw [splitOnDC_cons_cons, if_neg (fun hx => hc hx.1)]
      rw [show splitOnDC (':' :: ':' :: b) = [] :: splitOnDC b from
        by rw [splitOnDC_cons_cons, if_pos ⟨rfl, rfl⟩]]
    | cons d a'' =>
      have hsub : hasCP (d :: a'') = false := hasCP_cons_false c _ hcp
      have hesub : endsColon (d :: a'') = false := hec
      have ih2 := ih hsub hesub
      have hcd : ¬ (c = ':' ∧ d = ':') := by
        rintro ⟨hc, hd⟩
        subst hc
        subst hd
        rw [hasCP_cons_cons] at hcp
        simp at hcp
      show splitOnDC (c :: d :: (a'' ++ ':' :: ':' :: b)) = (c :: d :: a'') :: splitOnDC b
      rw [splitOnDC_cons_cons, if_neg hcd]
      rw [show (d :: (a'' ++ ':' :: ':' :: b)) = (d :: a'') ++ ':' :: ':' :: b from rfl, ih2]

theorem toLowerStr_cons (c : Char) (l : Str) :
    toLowerStr (c :: l) = c.toLower :: toLowerStr l := rfl

theorem splitOnDC_toLowerStr (l : Str) :
    splitOnDC (toLowerStr l) = (splitOnDC l).map toLowerStr := by
  induction l using splitOnDC.induct with
  | case1 => rfl
  | case2 c => rfl
  | case3 a b rest hab ih =>
    rcases hab with ⟨ha, hb⟩
    subst ha
    subst hb
    show splitOnDC (':' :: ':' :: toLowerStr rest) = _
    rw [splitOnDC_cons_cons, if_pos ⟨rfl, rfl⟩, ih]
    rfl
  | case4 a b rest hab hsplit ih =>
    exact absurd hsplit (splitOnDC_ne_nil _)
  | case5 a b rest hab q qs hsplit ih =>
    have hab2 : ¬ (a.toLower = ':' ∧ b.toLower = ':') := by
      rintro ⟨h1, h2⟩
      exact hab ⟨(toLower_eq_colon_iff a).mp h1, (toLower_eq_colon_iff b).mp h2⟩
    show splitOnDC (a.toLower :: b.toLower :: toLowerStr rest) = _
    rw [splitOnDC_cons_cons, if_neg hab2]
    have hlow : splitOnDC (b.toLower :: toLowerStr rest) = toLowerStr q :: qs.map toLowerStr := by
      rw [← toLowerStr_cons, ih, hsplit]
      rfl
    rw [hlow, splitOnDC_cons_cons, if_neg hab, hsplit]
    rfl

theorem mapLast_cons_of_ne_nil (f : Str → Str) (x : Str) (ys : List Str)
    (h : ys ≠ []) : mapLast f (x :: ys) = x :: mapLast f ys := by
  cases ys with
  | nil => exact absurd rfl h
  | cons y ys' => rfl

theorem trimR_head (c : Char) (t r : Str) (h : trimR (c :: t) = r) (hne : r ≠ []) :
    ∃ t2, r = c :: t2 := by
  rw [trimR_cons] at h
  cases hx : trimR t with
  | nil =>
    rw [hx] at h
    by_cases hc : isWS c = true
    · exfalso
      apply hne
      rw [← h]
      dsimp only
      rw [if_pos hc]
    · refine ⟨[], ?_⟩
      rw [← h]
      dsimp only
      rw [if_neg hc]
  | cons d t' =>
    rw [hx] at h
    exact ⟨d :: t', h.symm⟩

theorem splitOnDC_trimL (l : Str) :
    splitOnDC (trimL l) = mapHead trimL (splitOnDC l) := by
  induction l using splitOnDC.induct with
  | case1 => rfl
  | case2 c =>
    show splitOnDC (trimL [c]) = mapHead trimL [[c]]
    rw [trimL_cons]
    by_cases hc : isWS c = true
    · rw [if_pos hc]
      show [[]] = [trimL [c]]
      rw [trimL_cons, if_pos hc]
      rfl
    · rw [if_neg hc]
      show [[c]] = [trimL [c]]
      rw [trimL_cons, if_neg hc]
  | case3 a b rest hab ih =>
    rcases hab with ⟨ha, hb⟩
    subst ha
    subst hb
    show splitOnDC (trimL (':' :: ':' :: rest)) = _
    rw [trimL_cons, if_neg (by decide)]
    rw [splitOnDC_cons_cons, if_pos ⟨rfl, rfl⟩]
    rfl
  | case4 a b rest hab hsplit ih =>
    exact absurd hsplit (splitOnDC_ne_nil _)
  | case5 a b rest hab q qs hsplit ih =>
    show splitOnDC (trimL (a :: b :: rest)) = mapHead trimL (splitOnDC (a :: b :: rest))
    rw [trimL_cons]
    by_cases hc : isWS a = true
    · rw [if_pos hc, ih, hsplit]
      rw [splitOnDC_cons_cons, if_neg hab, hsplit]
      show trimL q :: qs = mapHead trimL ((a :: q) :: qs)
      have : trimL (a :: q) = trimL q := by rw [trimL_cons, if_pos hc]
      show trimL q :: qs = trimL (a :: q) :: qs
      rw [this]
    · rw [if_neg hc]
      rw [splitOnDC_cons_cons, if_neg hab, hsplit]
      show (a :: q) :: qs = mapHead trimL ((a :: q) :: qs)
      show (a :: q) :: qs = trimL (a :: q) :: qs
      rw [trimL_cons, if_neg hc]

theorem splitOnDC_trimR (l : Str) :
    splitOnDC (trimR l) = mapLast trimR (splitOnDC l) := by
  induction l using splitOnDC.induct with
  | case1 => rfl
  | case2 c =>
    show splitOnDC (trimR [c]) = [trimR [c]]
    rw [show trimR [c] = if isWS c = true then [] else [c] from rfl]
    by_cases hc : isWS c = true
    · rw [if_pos hc]
      rfl
    · rw [if_neg hc]
      rfl
  | case3 a b rest hab ih =>
    rcases hab with ⟨ha, hb⟩
    subst ha
    subst hb
    show splitOnDC (trimR (':' :: ':' :: rest)) = mapLast trimR (splitOnDC (':' :: ':' :: rest))
    rw [show splitOnDC (':' :: ':' :: rest) = [] :: splitOnDC rest from
      by rw [splitOnDC_cons_cons, if_pos ⟨rfl, rfl⟩]]
    rw [mapLast_cons_of_ne_nil trimR [] (splitOnDC rest) (splitOnDC_ne_nil rest)]
    rw [trimR_cons, trimR_cons]
    cases hx : trimR rest with
    | nil =>
      dsimp only
      rw [if_neg (by decide)]
      dsimp only
      have hall : rest.all isWS := (trimR_eq_nil_iff rest).mp hx
      rw [splitOnDC_of_no_cp rest (hasCP_all_ws rest hall)]
      show splitOnDC [':', ':'] = [[], trimR rest]
      rw [hx]
      rfl
    | cons r rs =>
      dsimp only
      rw [show splitOnDC (':' :: ':' :: r :: rs) = [] :: splitOnDC (r :: rs) from
        by rw [splitOnDC_cons_cons, if_pos ⟨rfl, rfl⟩]]
      rw [← hx, ih]
  | case4 a b rest hab hsplit ih =>
    exact absurd hsplit (splitOnDC_ne_nil _)
  | case5 a b rest hab q qs hsplit ih =>
    show splitOnDC (trimR (a :: b :: rest)) = mapLast trimR (splitOnDC (a :: b :: rest))
    rw [splitOnDC_cons_cons, if_neg hab, hsplit]
    rw [trimR_cons]
    cases hx : trimR (b :: rest) with
    | nil =>
      have hall : (b :: rest).all isWS := (trimR_eq_nil_iff _).mp hx
      have hq : splitOnDC (b :: rest) = [b :: rest] :=
        splitOnDC_of_no_cp _ (hasCP_all_ws _ hall)
      rw [hq] at hsplit
      injection hsplit with h1 h2
      subst h1
      subst h2
      dsimp only
      by_cases hc : isWS a = true
      · rw [if_pos hc]
        show [([] : Str)] = [trimR (a :: b :: rest)]
        rw [trimR_cons, hx]
        dsimp only
        rw [if_pos hc]
      · rw [if_neg hc]
        show [[a]] = [trimR (a :: b :: rest)]
        rw [trimR_cons, hx]
        dsimp only
        rw [if_neg hc]
    | cons r rs =>
      obtain ⟨t2, ht2⟩ := trimR_head b rest (r :: rs) hx (fun h => List.noConfusion h)
      dsimp only
      rw [ht2]
      rw [splitOnDC_cons_cons, if_neg hab]
      have hsp : splitOnDC (b :: t2) = mapLast trimR (q :: qs) := by
        rw [← ht2, ← hx, ih, hsplit]
      cases qs with
      | nil =>
        have hqval : q = b :: rest := splitOnDC_singleton _ _ hsplit
        rw [hsp]
        have hne : trimR q ≠ [] := by
          rw [hqval, hx]
          exact fun h => List.noConfusion h
        have heq : trimR (a :: q) = a :: trimR q := by
          rw [trimR_cons]
          cases hz : trimR q with
          | nil => exact absurd hz hne
          | cons z zs => rfl
        show (a :: trimR q) :: [] = [trimR (a :: q)]
        rw [heq]
      | cons q2 qs2 =>
        rw [hsp]
        rw [mapLast_cons_of_ne_nil trimR q (q2 :: qs2) (fun h => List.noConfusion h)]
        dsimp only
        rw [mapLast_cons_of_ne_nil trimR (a :: q) (q2 :: qs2) (fun h => List.noConfusion h)]

theorem rustTrim_trimR (l : Str) : rustTrim (trimR l) = rustTrim l := by
  unfold rustTrim
  rw [trimR_idem]

theorem rustTrim_getD_mapHead (ps : List Str) (i : Nat) :
    rustTrim ((mapHead trimL ps).getD i []) = rustTrim (ps.getD i []) := by
  cases ps with
  | nil => rfl
  | cons p t =>
    cases i with
    | zero =>
      show rustTrim (trimL p) = rustTrim p
      exact rustTrim_trimL p
    | succ j => rfl

theorem rustTrim_getD_mapLast (ps : List Str) (i : Nat) :
    rustTrim ((mapLast trimR ps).getD i []) = rustTrim (ps.getD i []) := by
  induction ps generalizing i with
  | nil => rfl
  | cons p t ih =>
    cases t with
    | nil =>
      cases i with
      | zero => exact rustTrim_trimR p
      | succ j => rfl
    | cons p2 t2 =>
      rw [mapLast_cons_of_ne_nil trimR p (p2 :: t2) (fun h => List.noConfusion h)]
      cases i with
      | zero => rfl
      | succ j =>
        show rustTrim ((mapLast trimR (p2 :: t2)).getD j []) = rustTrim ((p2 :: t2).getD j [])
        exact ih j

theorem partTrim (l : Str) (i : Nat) :
    rustTrim ((splitOnDC (rustTrim l)).getD i []) = rustTrim ((splitOnDC l).getD i []) := by
  show rustTrim ((splitOnDC (trimL (trimR l))).getD i []) = _
  rw [splitOnDC_trimL, splitOnDC_trimR, rustTrim_getD_mapHead, rustTrim_getD_mapLast]

theorem getD_map_toLowerStr (ps : List Str) (i : Nat) :
    (ps.map toLowerStr).getD i [] = toLowerStr (ps.getD i []) := by
  induction ps generalizing i with
  | nil => cases i <;> rfl
  | cons p t ih =>
    cases i with
    | zero => rfl
    | succ j => exact ih j

theorem partLower (l : Str) (i : Nat) :
    (splitOnDC (toLowerStr l)).getD i [] = toLowerStr ((splitOnDC l).getD i []) := by
  rw [splitOnDC_toLowerStr, getD_map_toLowerStr]

theorem wordsOf_cons (c : Char) (rest : Str) :
    wordsOf (c :: rest) =
      if isWS c then wordsOf rest
      else
        match wordsOf rest, rest with
        | [], _ => [[c]]
        | w :: ws, r0 :: _ => if isWS r0 then [c] :: w :: ws else (c :: w) :: ws
        | _ :: _, [] => [[c]] := rfl

theorem wordsOf_spec (s : Str) :
    ∀ w ∈ wordsOf s, w ≠ [] ∧ ∀ c ∈ w, isWS c = false ∧ c ∈ s := by
  induction s with
  | nil => intro w hw; exact absurd hw (List.not_mem_nil w)
  | cons c rest ih =>
    intro w hw
    rw [wordsOf_cons] at hw
    by_cases hc : isWS c = true
    · rw [if_pos hc] at hw
      obtain ⟨h1, h2⟩ := ih w hw
      exact ⟨h1, fun d hd => ⟨(h2 d hd).1, List.mem_cons_of_mem c (h2 d hd).2⟩⟩
    · rw [if_neg hc] at hw
      cases hrest : wordsOf rest with
      | nil =>
        rw [hrest] at hw
        dsimp only at hw
        rcases List.mem_singleton.mp hw with rfl
        refine ⟨fun h => List.noConfusion h, fun d hd => ?_⟩
        rcases List.mem_singleton.mp hd with rfl
        exact ⟨Bool.not_eq_true _ ▸ hc, List.mem_cons_self _ _⟩
      | cons w0 ws =>
        rw [hrest] at hw
        cases rest with
        | nil => exact absurd hrest (fun h => List.noConfusion h)
        | cons r0 rest' =>
          dsimp only at hw
          by_cases hr : isWS r0 = true
          · rw [if_pos hr] at hw
            rcases List.mem_cons.mp hw with rfl | hw2
            · refine ⟨fun h => List.noConfusion h, fun d hd => ?_⟩
              rcases List.mem_singleton.mp hd with rfl
              exact ⟨Bool.not_eq_true _ ▸ hc, List.mem_cons_self _ _⟩
            · obtain ⟨h1, h2⟩ := ih w (hrest ▸ hw2)
              exact ⟨h1, fun d hd => ⟨(h2 d hd).1, List.mem_cons_of_mem c (h2 d hd).2⟩⟩
          · rw [if_neg hr] at hw
            rcases List.mem_cons.mp hw with rfl | hw2
            · obtain ⟨-, h2⟩ := ih w0 (hrest ▸ List.mem_cons_self w0 ws)
              refine ⟨fun h => List.noConfusion h, fun d hd => ?_⟩
              rcases List.mem_cons.mp hd with rfl | hd2
              · exact ⟨Bool.not_eq_true _ ▸ hc, List.mem_cons_self _ _⟩
              · exact ⟨(h2 d hd2).1, List.mem_cons_of_mem c (h2 d hd2).2⟩
            · obtain ⟨h1, h2⟩ := ih w (hrest ▸ List.mem_cons_of_mem w0 hw2)
              exact ⟨h1, fun d hd => ⟨(h2 d hd).1, List.mem_cons_of_mem c (h2 d hd).2⟩⟩

theorem wordsOf_word (w : Str) (hw : w ≠ []) (hc : ∀ c ∈ w, isWS c = false) :
    wordsOf w = [w] := by
  induction w with
  | nil => exact absurd rfl hw
  | cons c w' ih =>
    rw [wordsOf_cons, if_neg (Bool.not_eq_true _ ▸ hc c (List.mem_cons_self _ _))]
    cases w' with
    | nil => rfl
    | cons c2 w'' =>
      rw [ih (fun h => List.noConfusion h) (fun d hd => hc d (List.mem_cons_of_mem c hd))]
      dsimp only
      rw [if_neg (Bool.not_eq_true _ ▸ hc c2 (List.mem_cons_of_mem c (List.mem_cons_self _ _)))]

theorem wordsOf_ws_cons (t : Str) (c : Char) (hc : isWS c = true) :
    wordsOf (c :: t) = wordsOf t := by
  rw [wordsOf_cons, if_pos hc]

theorem wordsOf_append_word (w t : Str) (hw : w ≠ []) (hc : ∀ c ∈ w, isWS c = false) :
    wordsOf (w ++ ' ' :: t) = w :: wordsOf t := by
  induction w with
  | nil => exact absurd rfl hw
  | cons c w' ih =>
    show wordsOf (c :: (w' ++ ' ' :: t)) = (c :: w') :: wordsOf t
    rw [wordsOf_cons, if_neg (Bool.not_eq_true _ ▸ hc c (List.mem_cons_self _ _))]
    cases w' with
    | nil =>
      show (match wordsOf (' ' :: t), (' ' :: t) with
        | [], _ => [[c]]
        | w :: ws, r0 :: _ => if isWS r0 then [c] :: w :: ws else (c :: w) :: ws
        | _ :: _, [] => [[c]]) = [c] :: wordsOf t
      rw [wordsOf_ws_cons t ' ' (by decide)]
      cases hwt : wordsOf t with
      | nil => rfl
      | cons w0 ws =>
        dsimp only
        rw [if_pos (show isWS ' ' = true by decide)]
    | cons c2 w'' =>
      rw [ih (fun h => List.noConfusion h) (fun d hd => hc d (List.mem_cons_of_mem c hd))]
      rw [List.cons_append]
      dsimp only
      rw [if_neg (Bool.not_eq_true _ ▸ hc c2 (List.mem_cons_of_mem c (List.mem_cons_self _ _)))]

theorem wordsOf_join (ws : List Str)
    (h : ∀ w ∈ ws, w ≠ [] ∧ ∀ c ∈ w, isWS c = false) :
    wordsOf (joinSp ws) = ws := by
  induction ws with
  | nil => rfl
  | cons w t ih =>
    obtain ⟨h1, h2⟩ := h w (List.mem_cons_self w t)
    cases t with
    | nil =>
      show wordsOf w = [w]
      exact wordsOf_word w h1 h2
    | cons w2 t2 =>
      show wordsOf (w ++ ' ' :: joinSp (w2 :: t2)) = w :: w2 :: t2
      rw [wordsOf_append_word w _ h1 h2, ih (fun v hv => h v (List.mem_cons_of_mem w hv))]

theorem joinSp_chars (ws : List Str) (c : Char) (h : c ∈ joinSp ws) :
    (∃ w ∈ ws, c ∈ w) ∨ c = ' ' := by
  induction ws with
  | nil => exact absurd h (List.not_mem_nil c)
  | cons w t ih =>
    cases t with
    | nil => exact Or.inl ⟨w, List.mem_cons_self w [], h⟩
    | cons w2 t2 =>
      rw [show joinSp (w :: w2 :: t2) = w ++ ' ' :: joinSp (w2 :: t2) from rfl] at h
      rcases List.mem_append.mp h with h1 | h2
      · exact Or.inl ⟨w, List.mem_cons_self w _, h1⟩
      · rcases List.mem_cons.mp h2 with rfl | h3
        · exact Or.inr rfl
        · rcases ih h3 with ⟨v, hv, hcv⟩ | hsp
          · exact Or.inl ⟨v, List.mem_cons_of_mem w hv, hcv⟩
          · exact Or.inr hsp

theorem joinSp_ne_nil (w : Str) (t : List Str) (hw : w ≠ []) :
    joinSp (w :: t) ≠ [] := by
  cases t with
  | nil => exact hw
  | cons w2 t2 =>
    show w ++ ' ' :: joinSp (w2 :: t2) ≠ []
    cases w with
    | nil => exact absurd rfl hw
    | cons c w' => exact fun h => List.noConfusion h

theorem trimR_all_non_ws (l : Str) (h : ∀ c ∈ l, isWS c = false) : trimR l = l := by
  induction l with
  | nil => rfl
  | cons c rest ih =>
    rw [trimR_cons, ih (fun d hd => h d (List.mem_cons_of_mem c hd))]
    cases rest with
    | nil =>
      dsimp only
      rw [if_neg (Bool.not_eq_true _ ▸ h c (List.mem_cons_self _ _))]
    | cons r rs => rfl

theorem trimR_append_keep (a x : Str) (h : trimR x ≠ []) :
    trimR (a ++ x) = a ++ trimR x := by
  induction a with
  | nil => rfl
  | cons c a' ih =>
    show trimR (c :: (a' ++ x)) = c :: (a' ++ trimR x)
    rw [trimR_cons, ih]
    cases hx : trimR x with
    | nil => exact absurd hx h
    | cons r rs =>
      cases a' with
      | nil => rfl
      | cons d a'' => rfl

theorem trimL_join (ws : List Str)
    (h : ∀ w ∈ ws, w ≠ [] ∧ ∀ c ∈ w, isWS c = false) :
    trimL (joinSp ws) = joinSp ws := by
  cases ws with
  | nil => rfl
  | cons w t =>
    obtain ⟨h1, h2⟩ := h w (List.mem_cons_self w t)
    cases w with
    | nil => exact absurd rfl h1
    | cons c w' =>
      have hcw : isWS c = false := h2 c (List.mem_cons_self _ _)
      cases t with
      | nil =>
        show trimL (c :: w') = c :: w'
        rw [trimL_cons, if_neg (Bool.not_eq_true _ ▸ hcw)]
      | cons w2 t2 =>
        show trimL ((c :: w') ++ ' ' :: joinSp (w2 :: t2)) = _
        rw [List.cons_append, trimL_cons, if_neg (Bool.not_eq_true _ ▸ hcw)]
        rfl

theorem trimR_join (ws : List Str)
    (h : ∀ w ∈ ws, w ≠ [] ∧ ∀ c ∈ w, isWS c = false) :
    trimR (joinSp ws) = joinSp ws := by
  induction ws with
  | nil => rfl
  | cons w t ih =>
    obtain ⟨h1, h2⟩ := h w (List.mem_cons_self w t)
    cases t with
    | nil => exact trimR_all_non_ws w h2
    | cons w2 t2 =>
      have ht := ih (fun v hv => h v (List.mem_cons_of_mem w hv))
      have hne : joinSp (w2 :: t2) ≠ [] :=
        joinSp_ne_nil w2 t2 (h w2 (List.mem_cons_of_mem w (List.mem_cons_self _ _))).1
      show trimR (w ++ ' ' :: joinSp (w2 :: t2)) = w ++ ' ' :: joinSp (w2 :: t2)
      have hx : trimR (' ' :: joinSp (w2 :: t2)) = ' ' :: joinSp (w2 :: t2) := by
        rw [trimR_cons, ht]
        cases hj : joinSp (w2 :: t2) with
        | nil => exact absurd hj hne
        | cons j js => rfl
      have hne2 : trimR (' ' :: joinSp (w2 :: t2)) ≠ [] := by
        rw [hx]
        exact fun hh => List.noConfusion hh
      rw [trimR_append_keep w _ hne2, hx]

theorem rustTrim_join (ws : List Str)
    (h : ∀ w ∈ ws, w ≠ [] ∧ ∀ c ∈ w, isWS c = false) :
    rustTrim (joinSp ws) = joinSp ws := by
  show trimL (trimR (joinSp ws)) = joinSp ws
  rw [trimR_join ws h, trimL_join ws h]

theorem nmkCore_chars (s : Str) (lws : Bool) (c : Char) (h : c ∈ nmkCore s lws) :
    (c ∈ s ∧ (c.isAlphanum || c = '/' || c = '%') = true) ∨ c = ' ' := by
  induction s generalizing lws with
  | nil => exact absurd h (List.not_mem_nil c)
  | cons d rest ih =>
    rw [show nmkCore (d :: rest) lws =
        if d.isAlphanum || d = '/' || d = '%' then d :: nmkCore rest false
        else if lws then nmkCore rest true
        else ' ' :: nmkCore rest true from rfl] at h
    by_cases hd : (d.isAlphanum || d = '/' || d = '%') = true
    · rw [if_pos hd] at h
      rcases List.mem_cons.mp h with rfl | h2
      · exact Or.inl ⟨List.mem_cons_self _ _, hd⟩
      · rcases ih false h2 with ⟨hm, hp⟩ | hsp
        · exact Or.inl ⟨List.mem_cons_of_mem d hm, hp⟩
        · exact Or.inr hsp
    · rw [if_neg hd] at h
      cases lws with
      | true =>
        rw [if_pos rfl] at h
        rcases ih true h with ⟨hm, hp⟩ | hsp
        · exact Or.inl ⟨List.mem_cons_of_mem d hm, hp⟩
        · exact Or.inr hsp
      | false =>
        rw [if_neg (fun hh => Bool.noConfusion hh)] at h
        rcases List.mem_cons.mp h with rfl | h2
        · exact Or.inr rfl
        · rcases ih true h2 with ⟨hm, hp⟩ | hsp
          · exact Or.inl ⟨List.mem_cons_of_mem d hm, hp⟩
          · exact Or.inr hsp

theorem nmkCore_word (w rest : Str) (hw : w ≠ [])
    (hc : ∀ c ∈ w, (c.isAlphanum || c = '/' || c = '%') = true) (lws : Bool) :
    nmkCore (w ++ rest) lws = w ++ nmkCore rest false := by
  induction w generalizing lws with
  | nil => exact absurd rfl hw
  | cons c w' ih =>
    show nmkCore (c :: (w' ++ rest)) lws = c :: (w' ++ nmkCore rest false)
    rw [show nmkCore (c :: (w' ++ rest)) lws =
        if c.isAlphanum || c = '/' || c = '%' then c :: nmkCore (w' ++ rest) false
        else if lws then nmkCore (w' ++ rest) true
        else ' ' :: nmkCore (w' ++ rest) true from rfl]
    rw [if_pos (hc c (List.mem_cons_self _ _))]
    cases w' with
    | nil => rfl
    | cons c2 w'' =>
      rw [ih (fun hh => List.noConfusion hh)
          (fun d hd => hc d (List.mem_cons_of_mem c hd)) false]

theorem nmkCore_join (ws : List Str)
    (h : ∀ w ∈ ws, w ≠ [] ∧ ∀ c ∈ w, (c.isAlphanum || c = '/' || c = '%') = true)
    (lws : Bool) :
    nmkCore (joinSp ws) lws = joinSp ws := by
  induction ws generalizing lws with
  | nil => rfl
  | cons w t ih =>
    obtain ⟨h1, h2⟩ := h w (List.mem_cons_self w t)
    cases t with
    | nil =>
      show nmkCore w lws = w
      have := nmkCore_word w [] h1 h2 lws
      rw [List.append_nil] at this
      rw [this]
      exact List.append_nil w
    | cons w2 t2 =>
      show nmkCore (w ++ ' ' :: joinSp (w2 :: t2)) lws = w ++ ' ' :: joinSp (w2 :: t2)
      rw [nmkCore_word w _ h1 h2 lws]
      rw [show nmkCore (' ' :: joinSp (w2 :: t2)) false =
          ' ' :: nmkCore (joinSp (w2 :: t2)) true from rfl]
      rw [ih (fun v hv => h v (List.mem_cons_of_mem w hv)) true]

theorem pc_not_ws (c : Char) (h : (c.isAlphanum || c = '/' || c = '%') = true) :
    isWS c = false := by
  by_contra hws
  rw [Bool.not_eq_false] at hws
  rcases (isWS_iff_toNat c).mp hws with h0 | h0 | h0 | h0
  · rw [char_eq_of_toNat_eq (show c.toNat = Char.toNat ' ' from h0)] at h
    exact absurd h (by decide)
  · rw [char_eq_of_toNat_eq (show c.toNat = Char.toNat '\t' from h0)] at h
    exact absurd h (by decide)
  · rw [char_eq_of_toNat_eq (show c.toNat = Char.toNat '\r' from h0)] at h
    exact absurd h (by decide)
  · rw [char_eq_of_toNat_eq (show c.toNat = Char.toNat '\n' from h0)] at h
    exact absurd h (by decide)

theorem nmk_words_good (m : Str) :
    ∀ w ∈ wordsOf (nmkCore (toLowerStr m) false),
      w ≠ [] ∧ ∀ c ∈ w, (c.isAlphanum || c = '/' || c = '%') = true := by
  intro w hw
  obtain ⟨h1, h2⟩ := wordsOf_spec _ w hw
  refine ⟨h1, fun c hc => ?_⟩
  obtain ⟨hws, hmem⟩ := h2 c hc
  rcases nmkCore_chars _ _ c hmem with ⟨-, hp⟩ | rfl
  · exact hp
  · exact absurd hws (by decide)

theorem nmk_words_ws (m : Str) :
    ∀ w ∈ wordsOf (nmkCore (toLowerStr m) false),
      w ≠ [] ∧ ∀ c ∈ w, isWS c = false := by
  intro w hw
  obtain ⟨h1, h2⟩ := nmk_words_good m w hw
  exact ⟨h1, fun c hc => pc_not_ws c (h2 c hc)⟩

theorem nmk_toLower_fixed (m : Str) :
    toLowerStr (normalize_metric_key m) = normalize_metric_key m := by
  apply toLowerStr_fixed
  intro c hc
  rcases joinSp_chars _ c hc with ⟨w, hw, hcw⟩ | rfl
  · obtain ⟨-, h2⟩ := wordsOf_spec _ w hw
    rcases nmkCore_chars _ _ c (h2 c hcw).2 with ⟨hmem, -⟩ | rfl
    · exact mem_toLowerStr_lower_fixed _ c hmem
    · rfl
  · rfl

theorem nmk_trim_fixed (m : Str) :
    rustTrim (normalize_metric_key m) = normalize_metric_key m :=
  rustTrim_join _ (nmk_words_ws m)

theorem nmk_no_colon (m : Str) : ∀ c ∈ normalize_metric_key m, c ≠ ':' := by
  intro c hc
  rcases joinSp_chars _ c hc with ⟨w, hw, hcw⟩ | rfl
  · obtain ⟨-, h2⟩ := nmk_words_good m w hw
    intro hcol
    subst hcol
    exact absurd (h2 ':' hcw) (by decide)
  · exact fun hh => Char.noConfusion (hh : ' ' = ':') (fun hv => by
      exact absurd (congrArg UInt32.toNat hv) (by decide))

theorem hasCP_no_colon (l : Str) (h : ∀ c ∈ l, c ≠ ':') : hasCP l = false := by
  induction l with
  | nil => rfl
  | cons a t ih =>
    cases t with
    | nil => rfl
    | cons b r =>
      rw [hasCP_cons_cons]
      rw [ih (fun c hc => h c (List.mem_cons_of_mem a hc))]
      rw [decide_eq_false (h a (List.mem_cons_self _ _))]
      rfl

theorem endsColon_no_colon (l : Str) (h : ∀ c ∈ l, c ≠ ':') : endsColon l = false := by
  induction l with
  | nil => rfl
  | cons a t ih =>
    cases t with
    | nil =>
      show (decide (a = ':')) = false
      exact decide_eq_false (h a (List.mem_cons_self _ _))
    | cons b r =>
      show endsColon (b :: r) = false
      exact ih (fun c hc => h c (List.mem_cons_of_mem a hc))

theorem nmk_idem (m : Str) :
    normalize_metric_key (normalize_metric_key m) = normalize_metric_key m := by
  show joinSp (wordsOf (nmkCore (toLowerStr (normalize_metric_key m)) false)) = _
  rw [nmk_toLower_fixed]
  show joinSp (wordsOf (nmkCore (joinSp (wordsOf (nmkCore (toLowerStr m) false))) false)) = _
  rw [nmkCore_join _ (nmk_words_good m) false, wordsOf_join _ (nmk_words_ws m)]
  rfl

theorem trimL_rustTrim (l : Str) : trimL (rustTrim l) = rustTrim l :=
  trimL_idem (trimR l)

theorem trimR_rustTrim (l : Str) : trimR (rustTrim l) = rustTrim l := by
  show trimR (trimL (trimR l)) = trimL (trimR l)
  rw [trimL_trimR_comm, trimR_idem]

theorem trimL_of_trim_fix (l : Str) (h : rustTrim l = l) : trimL l = l := by
  conv_lhs => rw [← h]
  rw [trimL_rustTrim, h]

theorem trimR_of_trim_fix (l : Str) (h : rustTrim l = l) : trimR l = l := by
  conv_lhs => rw [← h]
  rw [trimR_rustTrim, h]

theorem trimL_append_fix (a b : Str) (ha : trimL a = a) (hne : a ≠ []) :
    trimL (a ++ b) = a ++ b := by
  cases a with
  | nil => exact absurd rfl hne
  | cons c a' =>
    have hc : isWS c = false := by
      by_contra hcc
      rw [Bool.not_eq_false] at hcc
      rw [trimL_cons, if_pos hcc] at ha
      have hd : ∀ l : Str, (trimL l).length ≤ l.length := by
        intro l
        induction l with
        | nil => exact Nat.le_refl 0
        | cons d l' ihl =>
          rw [trimL_cons]
          by_cases hdw : isWS d = true
          · rw [if_pos hdw, List.length_cons]
            exact Nat.le_succ_of_le ihl
          · rw [if_neg hdw]
      have hd2 := hd a'
      rw [ha, List.length_cons] at hd2
      omega
    rw [List.cons_append, trimL_cons, if_neg (Bool.not_eq_true _ ▸ hc)]

theorem toLowerStr_append (a b : Str) :
    toLowerStr (a ++ b) = toLowerStr a ++ toLowerStr b := List.map_append _ _ _

theorem rustTrim_sandwich (a mid b : Str) (ha : trimL a = a) (hane : a ≠ [])
    (hb : trimR b = b) (hbne : b ≠ []) :
    rustTrim (a ++ (mid ++ b)) = a ++ (mid ++ b) := by
  have hbne2 : trimR b ≠ [] := by
    rw [hb]
    exact hbne
  have h1 : trimR (mid ++ b) = mid ++ b := by
    rw [trimR_append_keep mid b hbne2, hb]
  have h1ne : trimR (mid ++ b) ≠ [] := by
    rw [h1]
    exact fun hh => hbne (List.append_eq_nil.mp hh).2
  show trimL (trimR (a ++ (mid ++ b))) = a ++ (mid ++ b)
  rw [trimR_append_keep a _ h1ne, h1, trimL_append_fix a _ ha hane]

theorem hasCP_getD (l : Str) (i : Nat) : hasCP ((splitOnDC l).getD i []) = false := by
  by_cases hlt : i < (splitOnDC l).length
  · have hm : (splitOnDC l).getD i [] ∈ splitOnDC l := by
      rw [List.getD_eq_getElem _ _ hlt]
      exact List.getElem_mem hlt
    exact splitOnDC_parts_no_cp l _ hm
  · rw [List.getD_eq_default _ _ (Nat.le_of_not_lt hlt)]
    rfl

theorem normalize_event_id_eq (value : Str) :
    normalize_event_id value =
      if toLowerStr (rustTrim ((splitOnDC value).getD 0 [])) = []
          ∨ rustTrim ((splitOnDC value).getD 1 []) = []
          ∨ toLowerStr (rustTrim ((splitOnDC value).getD 2 [])) = []
      then toLowerStr (rustTrim value)
      else toLowerStr (rustTrim ((splitOnDC value).getD 0 [])) ++ lit "::"
           ++ normalize_metric_key (rustTrim ((splitOnDC value).getD 1 [])) ++ lit "::"
           ++ toLowerStr (rustTrim ((splitOnDC value).getD 2 [])) := rfl

theorem normalize_event_id_of_split (value a b c : Str)
    (hs : splitOnDC value = [a, b, c]) :
    normalize_event_id value =
      if toLowerStr (rustTrim a) = [] ∨ rustTrim b = [] ∨ toLowerStr (rustTrim c) = []
      then toLowerStr (rustTrim value)
      else toLowerStr (rustTrim a) ++ lit "::"
           ++ normalize_metric_key (rustTrim b) ++ lit "::"
           ++ toLowerStr (rustTrim c) := by
  rw [normalize_event_id_eq, hs]
  rfl

theorem part_of_fallback (x : Str) (i : Nat) :
    rustTrim ((splitOnDC (toLowerStr (rustTrim x))).getD i []) =
      toLowerStr (rustTrim ((splitOnDC x).getD i [])) := by
  rw [partLower, rustTrim_toLowerStr, partTrim]

theorem nei_assembled (cur freq metric : Str)
    (hcl : toLowerStr cur = cur) (hct : rustTrim cur = cur)
    (hccp : hasCP cur = false) (hcec : endsColon cur = false) (hcne : cur ≠ [])
    (hfl : toLowerStr freq = freq) (hft : rustTrim freq = freq)
    (hfcp : hasCP freq = false) (hfne : freq ≠ []) :
    normalize_event_id
        (cur ++ lit "::" ++ normalize_metric_key metric ++ lit "::" ++ freq)
      = cur ++ lit "::" ++ normalize_metric_key metric ++ lit "::" ++ freq := by
  have hy : cur ++ lit "::" ++ normalize_metric_key metric ++ lit "::" ++ freq
      = cur ++ ':' :: ':' :: (normalize_metric_key metric ++ ':' :: ':' :: freq) := by
    rw [show (lit "::" : Str) = [':', ':'] from rfl]
    simp only [List.append_assoc, List.cons_append, List.nil_append]
  rw [hy]
  have hMcp : hasCP (normalize_metric_key metric) = false :=
    hasCP_no_colon _ (nmk_no_colon metric)
  have hMec : endsColon (normalize_metric_key metric) = false :=
    endsColon_no_colon _ (nmk_no_colon metric)
  have hsplit : splitOnDC
      (cur ++ ':' :: ':' :: (normalize_metric_key metric ++ ':' :: ':' :: freq))
      = [cur, normalize_metric_key metric, freq] := by
    rw [splitOnDC_append_sep cur _ hccp hcec]
    by_cases hM : normalize_metric_key metric = []
    · rw [hM, List.nil_append, splitOnDC_cons_cons, if_pos ⟨rfl, rfl⟩,
        splitOnDC_of_no_cp freq hfcp]
    · rw [splitOnDC_append_sep _ _ hMcp hMec, splitOnDC_of_no_cp freq hfcp]
  rw [normalize_event_id_of_split _ cur (normalize_metric_key metric) freq hsplit]
  by_cases hM : normalize_metric_key metric = []
  · rw [hM, List.nil_append]
    rw [if_pos (Or.inr (Or.inl (show rustTrim [] = [] from rfl)))]
    have hcL : trimL cur = cur := trimL_of_trim_fix cur hct
    have hfR : trimR freq = freq := trimR_of_trim_fix freq hft
    have hr : rustTrim (cur ++ ':' :: ':' :: ':' :: ':' :: freq)
        = cur ++ ':' :: ':' :: ':' :: ':' :: freq :=
      rustTrim_sandwich cur [':', ':', ':', ':'] freq hcL hcne hfR hfne
    rw [hr, toLowerStr_append, hcl,
      show toLowerStr (':' :: ':' :: ':' :: ':' :: freq)
        = ':' :: ':' :: ':' :: ':' :: toLowerStr freq from rfl, hfl]
  · have hm1 : rustTrim (normalize_metric_key metric) = normalize_metric_key metric :=
      nmk_trim_fixed metric
    rw [hct, hcl, hm1, nmk_idem metric, hft, hfl]
    rw [if_neg (fun hh => hh.elim hcne (fun hh2 => hh2.elim hM hfne))]
    exact hy

/-- C6: the claim that normalize_event_id is idempotent for every string is
refuted by the counterexample theorem below; the amended statement proved here
is that normalize_event_id is idempotent for every input whose segment before
the first "::" does not end (after trimming) with a colon — equivalently,
whenever re-splitting the normalized output cannot merge a trailing colon of
the first segment with the first separator. -/
theorem normalize_event_id_idem_unless_colon_head (x : Str)
    (h : endsColon (rustTrim ((splitOnDC x).getD 0 [])) = false) :
    normalize_event_id (normalize_event_id x) = normalize_event_id x := by
  rw [normalize_event_id_eq x]
  by_cases hcond : toLowerStr (rustTrim ((splitOnDC x).getD 0 [])) = []
      ∨ rustTrim ((splitOnDC x).getD 1 []) = []
      ∨ toLowerStr (rustTrim ((splitOnDC x).getD 2 [])) = []
  · rw [if_pos hcond]
    rw [normalize_event_id_eq (toLowerStr (rustTrim x))]
    rw [part_of_fallback x 0, part_of_fallback x 1, part_of_fallback x 2,
      toLowerStr_toLowerStr, toLowerStr_toLowerStr]
    have hcond2 : toLowerStr (rustTrim ((splitOnDC x).getD 0 [])) = []
        ∨ toLowerStr (rustTrim ((splitOnDC x).getD 1 [])) = []
        ∨ toLowerStr (rustTrim ((splitOnDC x).getD 2 [])) = [] := by
      rcases hcond with h1 | h2 | h3
      · exact Or.inl h1
      · exact Or.inr (Or.inl ((toLowerStr_eq_nil_iff _).mpr h2))
      · exact Or.inr (Or.inr h3)
    rw [if_pos hcond2, rustTrim_toLowerStr, toLowerStr_toLowerStr, rustTrim_idem]
  · rw [if_neg hcond]
    push_neg at hcond
    obtain ⟨h1, h2, h3⟩ := hcond
    exact nei_assembled _ _ _
      (toLowerStr_toLowerStr _)
      (by rw [rustTrim_toLowerStr, rustTrim_idem])
      (by rw [hasCP_toLowerStr]; exact hasCP_rustTrim _ (hasCP_getD x 0))
      (by rw [endsColon_toLowerStr]; exact h)
      h1
      (toLowerStr_toLowerStr _)
      (by rw [rustTrim_toLowerStr, rustTrim_idem])
      (by rw [hasCP_toLowerStr]; exact hasCP_rustTrim _ (hasCP_getD x 2))
      h3

/-- Counterexample to C6 as stated: for the raw event string "a: ::CPI::m/m"
the first segment trims to "a:", which ends in a colon; normalizing once yields
"a:::cpi::m/m", whose re-split regroups the colons, so a second normalization
yields "a::cpi::m/m" and the function is not idempotent. -/
theorem normalize_event_id_not_idem_colon_head :
    normalize_event_id (normalize_event_id (lit "a: ::CPI::m/m"))
      ≠ normalize_event_id (lit "a: ::CPI::m/m") := by decide

theorem normalize_event_id_idem_unless_colon_head_witness :
    endsColon (rustTrim ((splitOnDC (lit "USD:: Core CPI ::M/M")).getD 0 [])) = false ∧
      normalize_event_id (normalize_event_id (lit "USD:: Core CPI ::M/M"))
        = normalize_event_id (lit "USD:: Core CPI ::M/M") :=
  ⟨by decide, normalize_event_id_idem_unless_colon_head (lit "USD:: Core CPI ::M/M") (by decide)⟩
